import Mathlib

/-!
# Verification of the tree-sitter-ts profile interpreter

A shallow embedding of the core of the `tree-sitter-ts` repository:
the character reader (`src/lexer/char-reader.ts`), the matcher compiler
(`src/lexer/matcher-compiler.ts`), the state machine
(`src/lexer/state-machine.ts`), the lexer (`src/lexer/lexer.ts`), the block
tracker (`src/parser/block-tracker.ts`) and the symbol detector
(`src/parser/symbol-detector.ts`), together with theorems settling the
frozen claims about the specification.

Modelling conventions:
* JavaScript strings that are walked character by character (the source
  text, token values, literals compared against source text) are
  `List Char`; identifier-like strings (token type names, state names,
  categories, capture names) are `String`.
* TypeScript numbers used as counts are `Int` where the code subtracts
  (so that non-negativity is a theorem, not a typing artefact), and `Nat`
  where the code only increments.
* The compiler functions of the source return closures; the embedding is
  the equivalent interpreter: `scanMatcher m r` is the body of
  `compileMatcher(m)(r)`.
* Unbounded loops of the source whose progress depends on the data
  (delimiter scanning, character-class `ref` resolution) take an explicit
  fuel argument; at every call site the fuel is larger than the number of
  iterations the source would perform on terminating inputs, and all
  theorems quantify over the fuel.
-/

/-- `Position` from `src/schema/common.ts`: 1-based line, 0-based column,
0-based offset. -/
structure Pos where
  line : Nat
  column : Nat
  offset : Nat
deriving Repr, DecidableEq

/-- `Range` from `src/schema/common.ts`. -/
structure Range where
  start : Pos
  stop : Pos
deriving Repr, DecidableEq

/-- `Token` from `src/types/token.ts`: type name, exact source slice,
highlighting category and range. -/
structure Token where
  type : String
  value : List Char
  category : String
  range : Range
deriving Repr, DecidableEq

/-- `CharReader` state from `src/lexer/char-reader.ts`: the source, the
current byte offset `pos`, the 1-based `line` and the 0-based `col`. -/
structure Reader where
  src : List Char
  pos : Nat
  line : Nat
  col : Nat
deriving Repr, DecidableEq

namespace Reader

/-- `CharReader.advance`: consume one character, returning it, treating
`\r\n` as a single line terminator (both characters are consumed) and a
bare `\r` as a line terminator.  Returns the empty string at end of
input.  Mirrors lines 62-80 of `char-reader.ts`. -/
def advance (r : Reader) : List Char × Reader :=
  match h : r.src.get? r.pos with
  | none => ([], r)
  | some ch =>
    if ch = '\n' then
      ([ch], { r with pos := r.pos + 1, line := r.line + 1, col := 0 })
    else if ch = '\r' then
      let pos2 := if r.src.get? (r.pos + 1) = some '\n' then r.pos + 2 else r.pos + 1
      ([ch], { r with pos := pos2, line := r.line + 1, col := 0 })
    else
      ([ch], { r with pos := r.pos + 1, col := r.col + 1 })

/-- The reader-state part of `CharReader.advanceN`: perform up to `n`
single-character advances, stopping at end of input. -/
def advanceNAux : Nat → Reader → Reader
  | 0, r => r
  | n + 1, r =>
    if r.pos < r.src.length then advanceNAux n (advance r).2 else r

/-- The slice of `src` between byte offsets `a` and `b`
(`src.slice(a, b)` in JavaScript). -/
def sliceList (src : List Char) (a b : Nat) : List Char :=
  (src.drop a).take (b - a)

/-- `CharReader.advanceN`: advance `n` characters and return the consumed
substring (the slice between the old and the new byte offset).  Mirrors
lines 83-89 of `char-reader.ts`. -/
def advanceN (n : Nat) (r : Reader) : List Char × Reader :=
  let r' := advanceNAux n r
  (sliceList r.src r.pos r'.pos, r')

/-- `CharReader.startsWith`: literal match at the current offset. -/
def startsWithAt (r : Reader) (s : List Char) : Bool :=
  decide (s <+: r.src.drop r.pos) && decide (r.pos + s.length ≤ r.src.length)

end Reader

section ReaderLemmas

open Reader

theorem advance_src (r : Reader) : (advance r).2.src = r.src := by
  unfold advance
  rcases h : r.src.get? r.pos with _ | ch <;> simp
  split <;> try rfl
  split <;> rfl

theorem advance_pos_le (r : Reader) : r.pos ≤ (advance r).2.pos := by
  unfold advance
  rcases h : r.src.get? r.pos with _ | ch <;> simp
  split
  · simp
  split
  · dsimp only
    split <;> omega
  · simp

theorem advance_pos_bound (r : Reader) (h : r.pos < r.src.length) :
    r.pos < (advance r).2.pos ∧ (advance r).2.pos ≤ r.src.length := by
  unfold advance
  rcases hg : r.src.get? r.pos with _ | ch
  · rw [List.get?_eq_none] at hg; omega
  simp only
  split
  · exact ⟨by (try dsimp only); omega, by (try dsimp only); omega⟩
  split
  · dsimp only
    split
    next hnl =>
      have hn2 : r.pos + 1 < r.src.length := by
        by_contra hc
        rw [List.get?_eq_none.2 (by omega)] at hnl
        exact Option.noConfusion hnl
      exact ⟨by (try dsimp only); omega, by (try dsimp only); omega⟩
    · exact ⟨by (try dsimp only); omega, by (try dsimp only); omega⟩
  · exact ⟨by (try dsimp only); omega, by (try dsimp only); omega⟩

theorem advanceNAux_src (n : Nat) (r : Reader) :
    (advanceNAux n r).src = r.src := by
  induction n generalizing r with
  | zero => rfl
  | succ n ih =>
    unfold advanceNAux
    split
    · rw [ih, advance_src]
    · rfl

theorem advanceNAux_pos_le (n : Nat) (r : Reader) :
    r.pos ≤ (advanceNAux n r).pos := by
  induction n generalizing r with
  | zero => exact Nat.le_refl _
  | succ n ih =>
    unfold advanceNAux
    split
    · exact Nat.le_trans (advance_pos_le r) (ih _)
    · exact Nat.le_refl _

theorem advanceNAux_pos_bound (n : Nat) (r : Reader) (h : r.pos ≤ r.src.length) :
    (advanceNAux n r).pos ≤ r.src.length := by
  induction n generalizing r with
  | zero => exact h
  | succ n ih =>
    unfold advanceNAux
    split
    next hlt =>
      have hb := advance_pos_bound r hlt
      have hsrc := advance_src r
      have := ih (advance r).2 (by rw [hsrc]; exact hb.2)
      rw [hsrc] at this
      exact this
    · exact h

theorem advanceNAux_pos_lt (n : Nat) (r : Reader) (hn : 0 < n)
    (h : r.pos < r.src.length) : r.pos < (advanceNAux n r).pos := by
  cases n with
  | zero => omega
  | succ n =>
    unfold advanceNAux
    rw [if_pos h]
    exact Nat.lt_of_lt_of_le (advance_pos_bound r h).1
      (by have := advanceNAux_pos_le n (advance r).2; exact this)

end ReaderLemmas

/-- Modelled from the spec: terminator counting with a flag recording
whether the previous character was a `\r` (so that the `\n` of a `\r\n`
pair is not counted again). -/
def termCountAux : Bool → List Char → Nat
  | _, [] => 0
  | prevCR, c :: rest =>
    if c = '\n' then (if prevCR then 0 else 1) + termCountAux false rest
    else if c = '\r' then 1 + termCountAux true rest
    else termCountAux false rest

/-- Modelled from the spec: the number of line terminators in a character
sequence, where a `\r\n` pair counts as one terminator and a bare `\r`
also counts (spec §3, "Position"). -/
def termCount (cs : List Char) : Nat :=
  termCountAux false cs

/-- Modelled from the spec: the column after consuming a character
sequence starting from column `col` — reset to 0 by every line-terminator
character, incremented by every other character.  (For `\r\n` the second
character resets the column again, so treating the pair as one terminator
yields the same column.) -/
def colAfter : List Char → Nat → Nat
  | [], col => col
  | c :: rest, col =>
    if c = '\n' ∨ c = '\r' then colAfter rest 0
    else colAfter rest (col + 1)

section AdvanceSpec

open Reader

theorem termCountAux_flag (t : List Char) (h : t.head? ≠ some '\n')
    (b b' : Bool) : termCountAux b t = termCountAux b' t := by
  cases t with
  | nil => rfl
  | cons c rest =>
    have hc : ¬ c = '\n' := by
      intro hc
      exact h (by rw [hc]; rfl)
    unfold termCountAux
    rw [if_neg hc, if_neg hc]

theorem sliceList_nil (src : List Char) (a b : Nat) (h : b ≤ a) :
    sliceList src a b = [] := by
  unfold sliceList
  rw [Nat.sub_eq_zero_of_le h, List.take_zero]

theorem sliceList_cons (src : List Char) (a b : Nat) (hab : a < b)
    (c : Char) (hc : src.get? a = some c) :
    sliceList src a b = c :: sliceList src (a + 1) b := by
  have ha : a < src.length := by
    by_contra hx
    rw [List.get?_eq_none.2 (by omega)] at hc
    exact Option.noConfusion hc
  unfold sliceList
  rw [List.drop_eq_get_cons ha]
  have hb : b - a = (b - (a + 1)) + 1 := by omega
  rw [hb, List.take_succ_cons]
  have : src.get ⟨a, ha⟩ = c := by
    rw [List.get?_eq_get ha] at hc
    exact Option.some.inj hc
  rw [this]

theorem sliceList_length (src : List Char) (a b : Nat) :
    (sliceList src a b).length = min (b - a) (src.length - a) := by
  unfold sliceList
  rw [List.length_take, List.length_drop]

/-- Case characterizations of `CharReader.advance`. -/
theorem advance_eq_nl (r : Reader) (hc : r.src.get? r.pos = some '\n') :
    advance r = (['\n'], ⟨r.src, r.pos + 1, r.line + 1, 0⟩) := by
  unfold advance
  rw [hc]
  rfl

theorem advance_eq_crlf (r : Reader) (hc : r.src.get? r.pos = some '\r')
    (hn : r.src.get? (r.pos + 1) = some '\n') :
    advance r = (['\r'], ⟨r.src, r.pos + 2, r.line + 1, 0⟩) := by
  unfold advance
  rw [hc]
  have hn2 : r.src[r.pos + 1]? = some '\n' := by simpa using hn
  simp [hn2]

theorem advance_eq_cr (r : Reader) (hc : r.src.get? r.pos = some '\r')
    (hn : ¬ r.src.get? (r.pos + 1) = some '\n') :
    advance r = (['\r'], ⟨r.src, r.pos + 1, r.line + 1, 0⟩) := by
  unfold advance
  rw [hc]
  have hn2 : ¬ r.src[r.pos + 1]? = some '\n' := by simpa using hn
  simp [hn2]

theorem advance_eq_other (r : Reader) (c : Char) (hc : r.src.get? r.pos = some c)
    (h1 : ¬ c = '\n') (h2 : ¬ c = '\r') :
    advance r = ([c], ⟨r.src, r.pos + 1, r.line, r.col + 1⟩) := by
  unfold advance
  rw [hc]
  simp only [if_neg h1, if_neg h2]

theorem termCount_nl_cons (t : List Char) : termCount ('\n' :: t) = 1 + termCount t := by
  simp [termCount, termCountAux]

theorem termCount_crlf_cons (t : List Char) :
    termCount ('\r' :: '\n' :: t) = 1 + termCount t := by
  simp [termCount, termCountAux]

theorem termCount_cr_cons (t : List Char) (h : t.head? ≠ some '\n') :
    termCount ('\r' :: t) = 1 + termCount t := by
  unfold termCount
  have h1 : termCountAux false ('\r' :: t) = 1 + termCountAux true t := by
    simp [termCountAux]
  rw [h1, termCountAux_flag t h true false]

theorem termCount_other_cons (c : Char) (t : List Char) (h1 : ¬ c = '\n')
    (h2 : ¬ c = '\r') : termCount (c :: t) = termCount t := by
  simp [termCount, termCountAux, h1, h2]

theorem colAfter_term_cons (c : Char) (t : List Char) (h : c = '\n' ∨ c = '\r')
    (col : Nat) : colAfter (c :: t) col = colAfter t 0 := by
  rw [show colAfter (c :: t) col
      = if c = '\n' ∨ c = '\r' then colAfter t 0 else colAfter t (col + 1) from rfl,
    if_pos h]

theorem colAfter_other_cons (c : Char) (t : List Char) (h1 : ¬ c = '\n')
    (h2 : ¬ c = '\r') (col : Nat) : colAfter (c :: t) col = colAfter t (col + 1) := by
  rw [show colAfter (c :: t) col
      = if c = '\n' ∨ c = '\r' then colAfter t 0 else colAfter t (col + 1) from rfl,
    if_neg (by intro hx; rcases hx with hx | hx; exact h1 hx; exact h2 hx)]

/-- Line and column tracking of `advanceN`: after any bulk advance the
line has increased by the number of line terminators in the consumed
slice (`\r\n` counting as one) and the column is the column after the
consumed slice. -/
theorem advanceNAux_lineCol (n : Nat) (r : Reader) :
    (advanceNAux n r).line
        = r.line + termCount (sliceList r.src r.pos (advanceNAux n r).pos) ∧
    (advanceNAux n r).col
        = colAfter (sliceList r.src r.pos (advanceNAux n r).pos) r.col := by
  induction n generalizing r with
  | zero =>
    rw [show advanceNAux 0 r = r from rfl,
      sliceList_nil r.src r.pos r.pos (Nat.le_refl _)]
    exact ⟨rfl, rfl⟩
  | succ n ih =>
    unfold advanceNAux
    split
    next hlt =>
      rcases hg : r.src.get? r.pos with _ | c
      · rw [List.get?_eq_none] at hg; omega
      by_cases hnl : c = '\n'
      · subst hnl
        rw [advance_eq_nl r hg]
        obtain ⟨ih1, ih2⟩ := ih ⟨r.src, r.pos + 1, r.line + 1, 0⟩
        have hple := advanceNAux_pos_le n (⟨r.src, r.pos + 1, r.line + 1, 0⟩ : Reader)
        dsimp only at ih1 ih2 hple ⊢
        rw [sliceList_cons r.src r.pos _ (by omega) _ hg]
        refine ⟨?_, ?_⟩
        · rw [ih1, termCount_nl_cons]; omega
        · rw [ih2, colAfter_term_cons _ _ (Or.inl rfl)]
      · by_cases hcr : c = '\r'
        · subst hcr
          by_cases hnext : r.src.get? (r.pos + 1) = some '\n'
          · rw [advance_eq_crlf r hg hnext]
            obtain ⟨ih1, ih2⟩ := ih ⟨r.src, r.pos + 2, r.line + 1, 0⟩
            have hple := advanceNAux_pos_le n (⟨r.src, r.pos + 2, r.line + 1, 0⟩ : Reader)
            dsimp only at ih1 ih2 hple ⊢
            rw [sliceList_cons r.src r.pos _ (by omega) _ hg,
              sliceList_cons r.src (r.pos + 1) _ (by omega) _ hnext,
              show r.pos + 1 + 1 = r.pos + 2 from rfl]
            refine ⟨?_, ?_⟩
            · rw [ih1, termCount_crlf_cons]; omega
            · rw [ih2, colAfter_term_cons _ _ (Or.inr rfl),
                colAfter_term_cons _ _ (Or.inl rfl)]
          · rw [advance_eq_cr r hg hnext]
            obtain ⟨ih1, ih2⟩ := ih ⟨r.src, r.pos + 1, r.line + 1, 0⟩
            have hple := advanceNAux_pos_le n (⟨r.src, r.pos + 1, r.line + 1, 0⟩ : Reader)
            dsimp only at ih1 ih2 hple ⊢
            rw [sliceList_cons r.src r.pos _ (by omega) _ hg]
            have htail : (sliceList r.src (r.pos + 1)
                (advanceNAux n (⟨r.src, r.pos + 1, r.line + 1, 0⟩ : Reader)).pos).head?
                ≠ some '\n' := by
              intro hh
              rcases hc2 : sliceList r.src (r.pos + 1)
                  (advanceNAux n (⟨r.src, r.pos + 1, r.line + 1, 0⟩ : Reader)).pos
                  with _ | ⟨c2, t2⟩
              · rw [hc2] at hh; exact Option.noConfusion hh
              rw [hc2] at hh
              have hc2n : c2 = '\n' := by simpa using hh
              have hlt2 : r.pos + 1
                  < (advanceNAux n (⟨r.src, r.pos + 1, r.line + 1, 0⟩ : Reader)).pos := by
                by_contra hx
                rw [sliceList_nil _ _ _ (by omega)] at hc2
                exact List.noConfusion hc2
              have hlen : r.pos + 1 < r.src.length := by
                by_contra hx
                have hb2 := advanceNAux_pos_bound n
                  (⟨r.src, r.pos + 1, r.line + 1, 0⟩ : Reader) (by dsimp only; omega)
                dsimp only at hb2
                omega
              have hcons2 := sliceList_cons r.src (r.pos + 1)
                (advanceNAux n (⟨r.src, r.pos + 1, r.line + 1, 0⟩ : Reader)).pos hlt2
                (r.src.get ⟨r.pos + 1, hlen⟩) (List.get?_eq_get hlen)
              rw [hcons2] at hc2
              have hinj := (List.cons.injEq _ _ _ _).mp hc2
              rw [List.get?_eq_get hlen, hinj.1, hc2n] at hnext
              exact hnext rfl
            refine ⟨?_, ?_⟩
            · rw [ih1, termCount_cr_cons _ htail]; omega
            · rw [ih2, colAfter_term_cons _ _ (Or.inr rfl)]
        · rw [advance_eq_other r c hg hnl hcr]
          obtain ⟨ih1, ih2⟩ := ih ⟨r.src, r.pos + 1, r.line, r.col + 1⟩
          have hple := advanceNAux_pos_le n (⟨r.src, r.pos + 1, r.line, r.col + 1⟩ : Reader)
          dsimp only at ih1 ih2 hple ⊢
          rw [sliceList_cons r.src r.pos _ (by omega) _ hg]
          refine ⟨?_, ?_⟩
          · rw [ih1, termCount_other_cons c _ hnl hcr]
          · rw [ih2, colAfter_other_cons c _ hnl hcr]
    next =>
      rw [sliceList_nil r.src r.pos r.pos (Nat.le_refl _)]
      exact ⟨rfl, rfl⟩


/-- With no `\r\n` pair starting in the consumed window, `advanceN` moves
the offset by exactly `n`. -/
theorem advanceNAux_pos_exact (n : Nat) (r : Reader)
    (hrem : r.pos + n ≤ r.src.length)
    (hno : ∀ i, r.pos ≤ i → i < r.pos + n →
      ¬(r.src.get? i = some '\r' ∧ r.src.get? (i + 1) = some '\n')) :
    (advanceNAux n r).pos = r.pos + n := by
  induction n generalizing r with
  | zero => rfl
  | succ n ih =>
    have hlt : r.pos < r.src.length := by omega
    unfold advanceNAux
    rw [if_pos hlt]
    rcases hg : r.src.get? r.pos with _ | c
    · rw [List.get?_eq_none] at hg; omega
    have hstep : (advance r).2 = ⟨r.src, r.pos + 1, (advance r).2.line, (advance r).2.col⟩ := by
      by_cases hnl : c = '\n'
      · subst hnl; rw [advance_eq_nl r hg]
      by_cases hcr : c = '\r'
      · subst hcr
        have hnx : ¬ r.src.get? (r.pos + 1) = some '\n' := by
          intro hx
          exact hno r.pos (Nat.le_refl _) (by omega) ⟨hg, hx⟩
        rw [advance_eq_cr r hg hnx]
      · rw [advance_eq_other r c hg hnl hcr]
    have := ih (advance r).2
      (by rw [hstep]; dsimp only; omega)
      (by
        rw [hstep]
        dsimp only
        intro i h1 h2
        exact hno i (by omega) (by omega))
    rw [this, hstep]
    dsimp only
    omega

end AdvanceSpec



section ClaimC2

open Reader

/-- C2 (amended): for `n` at most the remaining length, if no `\r\n` pair
starts inside the consumed window then `CharReader.advanceN n` advances
the byte offset by exactly `n` and returns exactly the `n`-character
slice that started at the prior offset; the line is advanced by the
number of line terminators in the consumed slice (`\r\n` counting as one
terminator, a bare `\r` advancing the line) and the column is the column
after the consumed slice.  (Without the no-`\r\n` proviso the offset can
advance by more than `n`, because each consumed `\r\n` pair counts as a
single character advance — see the counterexample.) -/
theorem advanceN_exact (r : Reader) (n : Nat)
    (hn : r.pos + n ≤ r.src.length)
    (hno : ∀ i, r.pos ≤ i → i < r.pos + n →
      ¬(r.src.get? i = some '\r' ∧ r.src.get? (i + 1) = some '\n')) :
    (advanceN n r).2.pos = r.pos + n ∧
    (advanceN n r).1 = sliceList r.src r.pos (r.pos + n) ∧
    (advanceN n r).1.length = n ∧
    (advanceN n r).2.src = r.src ∧
    (advanceN n r).2.line = r.line + termCount (advanceN n r).1 ∧
    (advanceN n r).2.col = colAfter (advanceN n r).1 r.col := by
  have hpos := advanceNAux_pos_exact n r hn hno
  have hsrc := advanceNAux_src n r
  have hlc := advanceNAux_lineCol n r
  unfold advanceN
  dsimp only
  refine ⟨hpos, by rw [hpos], ?_, hsrc, hlc.1, hlc.2⟩
  rw [hpos, sliceList_length]
  omega

/-- C2 counterexample: on the source `"\r\na"` at offset 0, advancing 2
characters moves the offset to 3, not 2, and the returned slice is the
3-character slice `"\r\na"`, not the 2-character slice at the prior
offset — the `\r\n` pair is consumed as one character advance of two
bytes. -/
theorem advanceN_claim_counterexample :
    (⟨"\r\na".toList, 0, 1, 0⟩ : Reader).pos + 2
        ≤ (⟨"\r\na".toList, 0, 1, 0⟩ : Reader).src.length ∧
    (advanceN 2 (⟨"\r\na".toList, 0, 1, 0⟩ : Reader)).2.pos ≠ 0 + 2 ∧
    (advanceN 2 (⟨"\r\na".toList, 0, 1, 0⟩ : Reader)).1
        ≠ sliceList "\r\na".toList 0 2 := by
  refine ⟨by decide, by decide, by decide⟩

/-- Witness for `advanceN_exact` at a concrete input: source `"ab\rcd"`
(a bare `\r`, no `\r\n` pair), advancing 4 characters from offset 0. -/
theorem advanceN_exact_witness :
    (advanceN 4 (⟨"ab\rcd".toList, 0, 1, 0⟩ : Reader)).2.pos = 0 + 4 ∧
    (advanceN 4 (⟨"ab\rcd".toList, 0, 1, 0⟩ : Reader)).1
        = sliceList "ab\rcd".toList 0 (0 + 4) ∧
    (advanceN 4 (⟨"ab\rcd".toList, 0, 1, 0⟩ : Reader)).1.length = 4 ∧
    (advanceN 4 (⟨"ab\rcd".toList, 0, 1, 0⟩ : Reader)).2.src = "ab\rcd".toList ∧
    (advanceN 4 (⟨"ab\rcd".toList, 0, 1, 0⟩ : Reader)).2.line
        = 1 + termCount (advanceN 4 (⟨"ab\rcd".toList, 0, 1, 0⟩ : Reader)).1 ∧
    (advanceN 4 (⟨"ab\rcd".toList, 0, 1, 0⟩ : Reader)).2.col
        = colAfter (advanceN 4 (⟨"ab\rcd".toList, 0, 1, 0⟩ : Reader)).1 0 :=
  advanceN_exact ⟨"ab\rcd".toList, 0, 1, 0⟩ 4 (by decide)
    (by intro i h1 h2; interval_cases i <;> decide)

end ClaimC2

-- ---------------------------------------------------------------------------
-- Character classes (src/lexer/char-classes.ts, src/schema/common.ts)
-- ---------------------------------------------------------------------------

/-- `PredefinedCharClass` from `src/schema/common.ts`. -/
inductive Predef where
  | letter | upper | lower | digit | hexDigit | alphanumeric
  | whitespace | newline | any
deriving Repr, DecidableEq

/-- `CharClass` from `src/schema/common.ts`: predefined class, explicit
character set, inclusive range, union, negation, or named reference. -/
inductive CharClass where
  | predefined (p : Predef)
  | chars (set : List Char)
  | range (lo hi : Char)
  | union (cs : List CharClass)
  | negate (c : CharClass)
  | ref (name : String)

/-- The predicate compiled for a predefined class (the `switch` in
`buildTest`, `char-classes.ts` lines 22-47).  `letter` is ASCII letters
plus `À`-`ɏ`; `whitespace` is space and tab only; `newline` is
`\n` or `\r`; `any` accepts every (non-empty, hence every) character. -/
def predTest : Predef → Char → Bool
  | .letter, c =>
    ('a' ≤ c && c ≤ 'z') || ('A' ≤ c && c ≤ 'Z')
      || (0xC0 ≤ c.toNat && c.toNat ≤ 0x24F)
  | .upper, c => 'A' ≤ c && c ≤ 'Z'
  | .lower, c => 'a' ≤ c && c ≤ 'z'
  | .digit, c => '0' ≤ c && c ≤ '9'
  | .hexDigit, c =>
    ('0' ≤ c && c ≤ '9') || ('a' ≤ c && c ≤ 'f') || ('A' ≤ c && c ≤ 'F')
  | .alphanumeric, c =>
    ('a' ≤ c && c ≤ 'z') || ('A' ≤ c && c ≤ 'Z')
      || (0xC0 ≤ c.toNat && c.toNat ≤ 0x24F) || ('0' ≤ c && c ≤ '9')
  | .whitespace, c => c = ' ' || c = '\t'
  | .newline, c => c = '\n' || c = '\r'
  | .any, _ => true

/-- The single-character test compiled by `buildTest`
(`char-classes.ts` lines 18-73), applied to one character.  The call
sites of the lexer only ever apply the test to a non-empty character, so
the `ch.length > 0` guards of `any` and `negate` are vacuous here.
`ref` resolution recurses through the class table; the fuel bounds that
recursion (the source loops forever on cyclic tables); an unresolved
reference yields `false` (the source throws at compile time —
`classOk` below captures that error condition). -/
def classTest (refs : List (String × CharClass)) : Nat → CharClass → Char → Bool
  | 0, _, _ => false
  | _ + 1, .predefined p, c => predTest p c
  | _ + 1, .chars set, c => set.contains c
  | _ + 1, .range lo hi, c => lo ≤ c && c ≤ hi
  | fuel + 1, .union cs, c => cs.any (fun d => classTest refs fuel d c)
  | fuel + 1, .negate inner, c => !(classTest refs fuel inner c)
  | fuel + 1, .ref name, c =>
    match refs.lookup name with
    | some d => classTest refs fuel d c
    | none => false

/-- The configuration-error check of `buildTest`: `true` iff every `ref`
reachable from the class resolves within the given fuel (the source
throws `Unknown charClass reference` otherwise). -/
def classOk (refs : List (String × CharClass)) : Nat → CharClass → Bool
  | 0, _ => false
  | _ + 1, .predefined _ => true
  | _ + 1, .chars _ => true
  | _ + 1, .range _ _ => true
  | fuel + 1, .union cs => cs.all (fun d => classOk refs fuel d)
  | fuel + 1, .negate inner => classOk refs fuel inner
  | fuel + 1, .ref name =>
    match refs.lookup name with
    | some d => classOk refs fuel d
    | none => false

-- ---------------------------------------------------------------------------
-- Matchers (src/schema/lexer.ts, src/lexer/matcher-compiler.ts)
-- ---------------------------------------------------------------------------

/-- `NumberMatcher` options from `src/schema/lexer.ts` (absent optional
flags are `false`/`none`, matching JavaScript falsiness). -/
structure NumberOpts where
  integer : Bool := false
  float : Bool := false
  hex : Bool := false
  octal : Bool := false
  binary : Bool := false
  scientific : Bool := false
  separator : Option (List Char) := none
  suffix : Option (List (List Char)) := none

/-- `Matcher` from `src/schema/lexer.ts`.  `str`/`strList` are the two
shapes of the string matcher (`value: string | string[]`).  The regex
escape hatch is abstracted by its anchored match-length function
(`m ? m[0].length : 0` in `compilePatternMatcher`). -/
inductive Matcher where
  | str (value : List Char)
  | strList (values : List (List Char))
  | keywords (words : List (List Char))
  | delimited (openL closeL : List Char) (escape : Option (List Char))
      (multiline nested : Bool)
  | line (start : List Char)
  | charSeq (first : CharClass) (rest : Option CharClass)
  | number (opts : NumberOpts)
  | sequence (elements : List Matcher)
  | pattern (matchLen : List Char → Option Nat)

/-- Sort a list of literals by length, longest first (the
`sort((a, b) => b.length - a.length)` calls of the compiler). -/
def sortByLenDesc (l : List (List Char)) : List (List Char) :=
  l.insertionSort (fun a b => b.length ≤ a.length)

/-- `matchAt` from `matcher-compiler.ts` lines 165-170: literal match of
`s` at `pos` (out-of-range reads behave as mismatches, as in JavaScript). -/
def matchAt (src : List Char) (pos : Nat) : List Char → Bool
  | [] => true
  | c :: rest => src.get? pos = some c && matchAt src (pos + 1) rest

/-- `isWordChar` from `matcher-compiler.ts` lines 103-105. -/
def isWordChar (c : Char) : Bool :=
  ('a' ≤ c && c ≤ 'z') || ('A' ≤ c && c ≤ 'Z') || ('0' ≤ c && c ≤ '9')
    || c = '_' || c = '$'

/-- The keyword search of `compileKeywordsMatcher` (lines 78-101): first
word (in the given order) that is a prefix at the current offset with a
non-word character (or nothing) on both sides. -/
def keywordScan (r : Reader) : List (List Char) → Int
  | [] => 0
  | w :: rest =>
    if r.startsWithAt w then
      if (match r.src.get? (r.pos + w.length) with
          | none => true
          | some after => !isWordChar after) then
        if (match r.pos, r.src.get? (r.pos - 1) with
            | 0, _ => true
            | _ + 1, none => true
            | _ + 1, some before => !isWordChar before) then
          (w.length : Int)
        else keywordScan r rest
      else keywordScan r rest
    else keywordScan r rest

/-- The string-list search of `compileStringMatcher` (lines 64-71):
first literal (in the given order) that is a prefix at the offset. -/
def strListScan (r : Reader) : List (List Char) → Int
  | [] => 0
  | s :: rest => if r.startsWithAt s then (s.length : Int) else strListScan r rest

/-- The escape test of `compileDelimitedMatcher` line 131:
`escape && src[pos] === escape` (a single-character escape string
matching the current character; the empty string is falsy). -/
def escMatches (escape : Option (List Char)) (src : List Char) (pos : Nat) : Bool :=
  match escape, src.get? pos with
  | some e, some c => e = [c]
  | _, _ => false

/-- The scan loop of `compileDelimitedMatcher` (lines 129-161): from
`pos` with nesting `depth`, check escape, nested open, close, then the
newline restriction, else advance one character; 0 on end of input.
The fuel dominates the iteration count on all inputs on which the
source loop terminates (every step advances `pos` unless the open
literal is empty with `nested` set, where the source loops forever). -/
def delimLoop (src openL closeL : List Char) (escape : Option (List Char))
    (multiline nested : Bool) (startPos : Nat) : Nat → Nat → Nat → Int
  | 0, _, _ => 0
  | fuel + 1, pos, depth =>
    if pos < src.length then
      if escMatches escape src pos then
        delimLoop src openL closeL escape multiline nested startPos fuel (pos + 2) depth
      else if nested && matchAt src pos openL then
        delimLoop src openL closeL escape multiline nested startPos fuel
          (pos + openL.length) (depth + 1)
      else if matchAt src pos closeL then
        if depth - 1 = 0 then (pos : Int) + closeL.length - startPos
        else
          delimLoop src openL closeL escape multiline nested startPos fuel
            (pos + closeL.length) (depth - 1)
      else if !multiline && (src.get? pos = some '\n' || src.get? pos = some '\r') then 0
      else delimLoop src openL closeL escape multiline nested startPos fuel (pos + 1) depth
    else 0

/-- The scan of `compileDelimitedMatcher` (lines 121-162). -/
def scanDelimited (openL closeL : List Char) (escape : Option (List Char))
    (multiline nested : Bool) (r : Reader) : Int :=
  if r.startsWithAt openL then
    delimLoop r.src openL closeL escape multiline nested r.pos
      (r.src.length + 1) (r.pos + openL.length) 1
  else 0

/-- The end-of-line search of `compileLineMatcher` (lines 181-184). -/
def lineLoop (src : List Char) : Nat → Nat → Nat
  | 0, pos => pos
  | fuel + 1, pos =>
    match src.get? pos with
    | some c => if c ≠ '\n' && c ≠ '\r' then lineLoop src fuel (pos + 1) else pos
    | none => pos

/-- The greedy extension loop of `compileCharSequenceMatcher`
(lines 207-211). -/
def csLoop (src : List Char) (test : Char → Bool) : Nat → Nat → Nat
  | 0, pos => pos
  | fuel + 1, pos =>
    match src.get? pos with
    | some c => if test c then csLoop src test fuel (pos + 1) else pos
    | none => pos

/-- The separator test inside the digit loops of `compileNumberMatcher`:
`opts.separator && pos < src.length && src[pos] === opts.separator`. -/
def sepMatches (sep : Option (List Char)) (src : List Char) (pos : Nat) : Bool :=
  match sep, src.get? pos with
  | some e, some c => e = [c]
  | _, _ => false

/-- The digit-scanning loop shared by the hex/octal/binary/decimal
branches of `compileNumberMatcher`: while the current character is a
digit advance, then additionally skip one separator character if it
follows (lines 243-248 and the analogous loops). -/
def digitSepLoop (src : List Char) (isD : Char → Bool) (sep : Option (List Char)) :
    Nat → Nat → Nat
  | 0, pos => pos
  | fuel + 1, pos =>
    match src.get? pos with
    | some c =>
      if isD c then
        let p1 := pos + 1
        digitSepLoop src isD sep fuel (if sepMatches sep src p1 then p1 + 1 else p1)
      else pos
    | none => pos

/-- `consumeSuffix` from `matcher-compiler.ts` lines 353-366: longest
matching configured suffix, if any. -/
def consumeSuffix (src : List Char) (pos : Nat) :
    Option (List (List Char)) → Nat
  | none => pos
  | some sufs =>
    match (sortByLenDesc sufs).find? (fun s => matchAt src pos s) with
    | some s => pos + s.length
    | none => pos

def isDigitCh (c : Char) : Bool := '0' ≤ c && c ≤ '9'

def isHexDigitCh (c : Char) : Bool :=
  ('0' ≤ c && c ≤ '9') || ('a' ≤ c && c ≤ 'f') || ('A' ≤ c && c ≤ 'F')

def isOctalDigitCh (c : Char) : Bool := '0' ≤ c && c ≤ '7'

def isBinaryDigitCh (c : Char) : Bool := c = '0' || c = '1'

/-- The prefixed-format part of `compileNumberMatcher` (lines 236-280):
`0x`/`0o`/`0b` literals when the corresponding flag is on; `none` when no
prefixed format applies at the offset. -/
def scanNumberPrefixed (opts : NumberOpts) (src : List Char) (start : Nat) :
    Option Int :=
  match src.get? start, src.get? (start + 1) with
  | some c0, some next =>
    if c0 = '0' then
      if opts.hex && (next = 'x' || next = 'X') then
        let hexStart := start + 2
        let pos := digitSepLoop src isHexDigitCh opts.separator (src.length + 1) hexStart
        some (if pos = hexStart then 0
          else (consumeSuffix src pos opts.suffix : Int) - start)
      else if opts.octal && (next = 'o' || next = 'O') then
        let octStart := start + 2
        let pos := digitSepLoop src isOctalDigitCh opts.separator (src.length + 1) octStart
        some (if pos = octStart then 0
          else (consumeSuffix src pos opts.suffix : Int) - start)
      else if opts.binary && (next = 'b' || next = 'B') then
        let binStart := start + 2
        let pos := digitSepLoop src isBinaryDigitCh opts.separator (src.length + 1) binStart
        some (if pos = binStart then 0
          else (consumeSuffix src pos opts.suffix : Int) - start)
      else none
    else none
  | _, _ => none

/-- End of the decimal integer part (the loop at lines 298-303). -/
def decIntEnd (opts : NumberOpts) (src : List Char) (start : Nat) : Nat :=
  digitSepLoop src isDigitCh opts.separator (src.length + 1) start

/-- End of the optional fractional part (lines 306-317): the dot is
consumed only when a digit follows it. -/
def decFracEnd (opts : NumberOpts) (src : List Char) (pos1 : Nat) : Nat :=
  if opts.float && src.get? pos1 = some '.' then
    if (match src.get? (pos1 + 1) with | some c => isDigitCh c | none => false) then
      digitSepLoop src isDigitCh opts.separator (src.length + 1) (pos1 + 1)
    else pos1
  else pos1

/-- End of the optional scientific suffix (lines 323-339): committed only
when at least one exponent digit is present. -/
def decSciEnd (opts : NumberOpts) (src : List Char) (pos2 : Nat) : Nat :=
  if opts.scientific && (src.get? pos2 = some 'e' || src.get? pos2 = some 'E') then
    let ePos := pos2 + 1
    let ePos := if src.get? ePos = some '+' || src.get? ePos = some '-'
      then ePos + 1 else ePos
    let eEnd := digitSepLoop src isDigitCh none (src.length + 1) ePos
    if ePos < eEnd then eEnd else pos2
  else pos2

/-- The decimal branch of `compileNumberMatcher` (lines 282-342). -/
def scanNumberDecimal (opts : NumberOpts) (src : List Char) (start : Nat) : Int :=
  if !opts.integer && !opts.float then 0
  else
    let isDigit := match src.get? start with
      | some c => isDigitCh c
      | none => false
    let isDotDigit := opts.float
      && (match src.get? start with | some c => c = '.' | none => false)
      && (match src.get? (start + 1) with | some c => isDigitCh c | none => false)
    if !isDigit && !isDotDigit then 0
    else
      let pos2 := decFracEnd opts src (decIntEnd opts src start)
      if pos2 = start then 0
      else (consumeSuffix src (decSciEnd opts src pos2) opts.suffix : Int) - start

/-- The scan of `compileNumberMatcher` (lines 230-342): prefixed
hex/octal/binary formats, then decimal integer/float with optional
scientific suffix, then unit suffixes.  Returns the signed count
`consumeSuffix(...) - start` exactly as the source computes it. -/
def scanNumber (opts : NumberOpts) (r : Reader) : Int :=
  match scanNumberPrefixed opts r.src r.pos with
  | some result => result
  | none => scanNumberDecimal opts r.src r.pos

/-- Saved reader state (`ReaderState` from `char-reader.ts`). -/
structure RState where
  pos : Nat
  line : Nat
  col : Nat
deriving Repr, DecidableEq

/-- `CharReader.save`. -/
def saveR (r : Reader) : RState := ⟨r.pos, r.line, r.col⟩

/-- `CharReader.restore`: reset offset/line/column, keeping the source. -/
def restoreR (r : Reader) (s : RState) : Reader := ⟨r.src, s.pos, s.line, s.col⟩

/-- The compiled scan of a matcher applied to a reader: `scanM clFuel
classes fuel m r` is `compileMatcher(m, classes)(r)` from
`matcher-compiler.ts` lines 21-53, returning the signed character count
together with the reader as left by the call (only the sequence matcher
touches the reader, advancing to measure and finally restoring —
lines 372-394).  `fuel` bounds the nesting depth of `sequence` matchers
(the source recurses structurally on the finite specification tree);
`clFuel` bounds character-class `ref` resolution. -/
def scanM (clFuel : Nat) (classes : List (String × CharClass)) :
    Nat → Matcher → Reader → Int × Reader
  | 0, _, r => (0, r)
  | fuel + 1, m, r =>
    match m with
    | .str v => (if r.startsWithAt v then (v.length : Int) else 0, r)
    | .strList vs => (strListScan r (sortByLenDesc vs), r)
    | .keywords ws => (keywordScan r (sortByLenDesc ws), r)
    | .delimited o c e ml nst => (scanDelimited o c e ml nst r, r)
    | .line s =>
      (if r.startsWithAt s then
        ((lineLoop r.src (r.src.length + 1) (r.pos + s.length) : Int) - r.pos)
      else 0, r)
    | .charSeq first rest =>
      (match r.src.get? r.pos with
      | none => 0
      | some ch =>
        if classTest classes clFuel first ch then
          match rest with
          | none => 1
          | some rc =>
            ((csLoop r.src (classTest classes clFuel rc) (r.src.length + 1)
              (r.pos + 1) : Int) - r.pos)
        else 0, r)
    | .number opts => (scanNumber opts r, r)
    | .sequence els =>
      let saved := saveR r
      let fin := els.foldl (fun (acc : Reader × Int × Bool) mel =>
        if acc.2.2 then acc
        else
          let nr := scanM clFuel classes fuel mel acc.1
          if nr.1 = 0 then (nr.2, 0, true)
          else ((Reader.advanceN nr.1.toNat nr.2).2, acc.2.1 + nr.1, false))
        (r, 0, false)
      (if fin.2.2 then 0 else fin.2.1, restoreR fin.1 saved)
    | .pattern f =>
      (match f (r.src.drop r.pos) with | some k => (k : Int) | none => 0, r)

section ScanLemmas

theorem strListScan_nonneg (r : Reader) (l : List (List Char)) :
    0 ≤ strListScan r l := by
  induction l with
  | nil => exact Int.le_refl 0
  | cons s rest ih =>
    unfold strListScan
    split
    · exact Int.ofNat_nonneg _
    · exact ih

theorem keywordScan_nonneg (r : Reader) (l : List (List Char)) :
    0 ≤ keywordScan r l := by
  induction l with
  | nil => exact Int.le_refl 0
  | cons w rest ih =>
    unfold keywordScan
    split
    · split
      · split
        · exact Int.ofNat_nonneg _
        · exact ih
      · exact ih
    · exact ih

theorem delimLoop_nonneg (src openL closeL : List Char) (escape : Option (List Char))
    (multiline nested : Bool) (startPos fuel pos depth : Nat)
    (h : startPos ≤ pos) :
    0 ≤ delimLoop src openL closeL escape multiline nested startPos fuel pos depth := by
  induction fuel generalizing pos depth with
  | zero => exact Int.le_refl 0
  | succ fuel ih =>
    unfold delimLoop
    split
    · split
      · exact ih (pos + 2) depth (by omega)
      split
      · exact ih (pos + openL.length) (depth + 1) (by omega)
      split
      · split
        · omega
        · exact ih (pos + closeL.length) (depth - 1) (by omega)
      split
      · exact Int.le_refl 0
      · exact ih (pos + 1) depth (by omega)
    · exact Int.le_refl 0

theorem scanDelimited_nonneg (openL closeL : List Char) (escape : Option (List Char))
    (multiline nested : Bool) (r : Reader) :
    0 ≤ scanDelimited openL closeL escape multiline nested r := by
  unfold scanDelimited
  split
  · exact delimLoop_nonneg _ _ _ _ _ _ _ _ _ _ (by omega)
  · exact Int.le_refl 0

theorem lineLoop_ge (src : List Char) (fuel pos : Nat) :
    pos ≤ lineLoop src fuel pos := by
  induction fuel generalizing pos with
  | zero => exact Nat.le_refl _
  | succ fuel ih =>
    unfold lineLoop
    split
    · split
      · exact Nat.le_trans (by omega) (ih (pos + 1))
      · exact Nat.le_refl _
    · exact Nat.le_refl _

theorem csLoop_ge (src : List Char) (test : Char → Bool) (fuel pos : Nat) :
    pos ≤ csLoop src test fuel pos := by
  induction fuel generalizing pos with
  | zero => exact Nat.le_refl _
  | succ fuel ih =>
    unfold csLoop
    split
    · split
      · exact Nat.le_trans (by omega) (ih (pos + 1))
      · exact Nat.le_refl _
    · exact Nat.le_refl _

theorem digitSepLoop_ge (src : List Char) (isD : Char → Bool)
    (sep : Option (List Char)) (fuel pos : Nat) :
    pos ≤ digitSepLoop src isD sep fuel pos := by
  induction fuel generalizing pos with
  | zero => exact Nat.le_refl _
  | succ fuel ih =>
    unfold digitSepLoop
    split
    · split
      · refine Nat.le_trans ?_ (ih _)
        split <;> omega
      · exact Nat.le_refl _
    · exact Nat.le_refl _

theorem consumeSuffix_ge (src : List Char) (pos : Nat)
    (sufs : Option (List (List Char))) : pos ≤ consumeSuffix src pos sufs := by
  unfold consumeSuffix
  rcases sufs with _ | l
  · exact Nat.le_refl _
  · dsimp only
    split
    · omega
    · exact Nat.le_refl _

theorem decFracEnd_ge (opts : NumberOpts) (src : List Char) (pos1 : Nat) :
    pos1 ≤ decFracEnd opts src pos1 := by
  unfold decFracEnd
  split
  · split
    · exact Nat.le_trans (by omega) (digitSepLoop_ge src isDigitCh opts.separator _ (pos1 + 1))
    · exact Nat.le_refl _
  · exact Nat.le_refl _

theorem decSciEnd_ge (opts : NumberOpts) (src : List Char) (pos2 : Nat) :
    pos2 ≤ decSciEnd opts src pos2 := by
  unfold decSciEnd
  split
  · dsimp only
    split <;> split
    · omega
    · exact Nat.le_refl _
    · omega
    · exact Nat.le_refl _
  · exact Nat.le_refl _

theorem scanNumberPrefixed_nonneg (opts : NumberOpts) (src : List Char)
    (start : Nat) (result : Int)
    (h : scanNumberPrefixed opts src start = some result) : 0 ≤ result := by
  unfold scanNumberPrefixed at h
  rcases hg0 : src.get? start with _ | c0 <;> rw [hg0] at h
  · exact Option.noConfusion h
  rcases hg1 : src.get? (start + 1) with _ | c1 <;> rw [hg1] at h
  · exact Option.noConfusion h
  dsimp only at h
  split at h
  · split at h
    · have hd := digitSepLoop_ge src isHexDigitCh opts.separator (src.length + 1) (start + 2)
      have hs := consumeSuffix_ge src
        (digitSepLoop src isHexDigitCh opts.separator (src.length + 1) (start + 2)) opts.suffix
      rw [← Option.some.inj h]
      split <;> omega
    split at h
    · have hd := digitSepLoop_ge src isOctalDigitCh opts.separator (src.length + 1) (start + 2)
      have hs := consumeSuffix_ge src
        (digitSepLoop src isOctalDigitCh opts.separator (src.length + 1) (start + 2)) opts.suffix
      rw [← Option.some.inj h]
      split <;> omega
    split at h
    · have hd := digitSepLoop_ge src isBinaryDigitCh opts.separator (src.length + 1) (start + 2)
      have hs := consumeSuffix_ge src
        (digitSepLoop src isBinaryDigitCh opts.separator (src.length + 1) (start + 2)) opts.suffix
      rw [← Option.some.inj h]
      split <;> omega
    · exact Option.noConfusion h
  · exact Option.noConfusion h

theorem scanNumberDecimal_nonneg (opts : NumberOpts) (src : List Char)
    (start : Nat) : 0 ≤ scanNumberDecimal opts src start := by
  unfold scanNumberDecimal
  split
  · exact Int.le_refl 0
  dsimp only
  split
  · exact Int.le_refl 0
  split
  · exact Int.le_refl 0
  · have h1 := digitSepLoop_ge src isDigitCh opts.separator (src.length + 1) start
    have h2 := decFracEnd_ge opts src (decIntEnd opts src start)
    have h3 := decSciEnd_ge opts src (decFracEnd opts src (decIntEnd opts src start))
    have h4 := consumeSuffix_ge src
      (decSciEnd opts src (decFracEnd opts src (decIntEnd opts src start))) opts.suffix
    unfold decIntEnd at h2 h3 h4 ⊢
    omega

theorem scanNumber_nonneg (opts : NumberOpts) (r : Reader) :
    0 ≤ scanNumber opts r := by
  unfold scanNumber
  split
  next result heq => exact scanNumberPrefixed_nonneg opts r.src r.pos result heq
  · exact scanNumberDecimal_nonneg opts r.src r.pos

end ScanLemmas

/-- C3: every compiled matcher scan returns a non-negative character
count and leaves the reader's (offset, line, column) — indeed the entire
reader state — exactly as they were before the call; in particular the
sequence matcher restores the reader to its saved state both when every
element matches and when some element returns 0. -/
theorem scanM_frame (clFuel : Nat) (classes : List (String × CharClass))
    (fuel : Nat) (m : Matcher) (r : Reader) :
    0 ≤ (scanM clFuel classes fuel m r).1 ∧ (scanM clFuel classes fuel m r).2 = r := by
  induction fuel generalizing m r with
  | zero => exact ⟨Int.le_refl 0, rfl⟩
  | succ fuel ih =>
    cases m with
    | str v =>
      refine ⟨?_, rfl⟩
      show 0 ≤ (if r.startsWithAt v then (v.length : Int) else 0)
      split
      · exact Int.ofNat_nonneg _
      · exact Int.le_refl 0
    | strList vs => exact ⟨strListScan_nonneg r _, rfl⟩
    | keywords ws => exact ⟨keywordScan_nonneg r _, rfl⟩
    | delimited o c e ml nst => exact ⟨scanDelimited_nonneg o c e ml nst r, rfl⟩
    | line s =>
      refine ⟨?_, rfl⟩
      show 0 ≤ (if r.startsWithAt s then
        ((lineLoop r.src (r.src.length + 1) (r.pos + s.length) : Int) - r.pos) else 0)
      split
      · have := lineLoop_ge r.src (r.src.length + 1) (r.pos + s.length)
        omega
      · exact Int.le_refl 0
    | charSeq first rest =>
      refine ⟨?_, rfl⟩
      show (0 : Int) ≤ (match r.src.get? r.pos with
        | none => (0 : Int)
        | some ch =>
          if classTest classes clFuel first ch then
            match rest with
            | none => (1 : Int)
            | some rc =>
              ((csLoop r.src (classTest classes clFuel rc) (r.src.length + 1)
                (r.pos + 1) : Int) - r.pos)
          else (0 : Int))
      rcases r.src.get? r.pos with _ | ch
      · exact Int.le_refl 0
      dsimp only
      split
      · rcases rest with _ | rc
        · exact Int.le_of_lt Int.zero_lt_one
        · dsimp only
          rw [sub_nonneg]
          exact_mod_cast le_trans (Nat.le_succ r.pos)
            (csLoop_ge r.src (classTest classes clFuel rc) (r.src.length + 1) (r.pos + 1))
      · exact Int.le_refl 0
    | number opts => exact ⟨scanNumber_nonneg opts r, rfl⟩
    | sequence els =>
      have key : ∀ (l : List Matcher) (acc : Reader × Int × Bool),
          acc.1.src = r.src → 0 ≤ acc.2.1 →
          (l.foldl (fun (acc : Reader × Int × Bool) mel =>
            if acc.2.2 then acc
            else
              let nr := scanM clFuel classes fuel mel acc.1
              if nr.1 = 0 then (nr.2, 0, true)
              else ((Reader.advanceN nr.1.toNat nr.2).2, acc.2.1 + nr.1, false)) acc).1.src
              = r.src ∧
          0 ≤ (l.foldl (fun (acc : Reader × Int × Bool) mel =>
            if acc.2.2 then acc
            else
              let nr := scanM clFuel classes fuel mel acc.1
              if nr.1 = 0 then (nr.2, 0, true)
              else ((Reader.advanceN nr.1.toNat nr.2).2, acc.2.1 + nr.1, false)) acc).2.1 := by
        intro l
        induction l with
        | nil => intro acc h1 h2; exact ⟨h1, h2⟩
        | cons mel rest ihl =>
          intro acc h1 h2
          rw [List.foldl_cons]
          by_cases hf : acc.2.2
          · rw [if_pos hf]
            exact ihl acc h1 h2
          · rw [if_neg hf]
            dsimp only
            obtain ⟨ihm1, ihm2⟩ := ih mel acc.1
            split
            · refine ihl _ ?_ (Int.le_refl 0)
              dsimp only
              rw [ihm2, h1]
            · refine ihl _ ?_ ?_
              · show (Reader.advanceN _ _).2.src = r.src
                unfold Reader.advanceN
                dsimp only
                rw [advanceNAux_src, ihm2, h1]
              · dsimp only
                omega
      obtain ⟨k1, k2⟩ := key els (r, 0, false) rfl (Int.le_refl 0)
      constructor
      · show 0 ≤ (scanM clFuel classes (fuel + 1) (.sequence els) r).1
        simp only [scanM]
        split
        · exact Int.le_refl 0
        · exact k2
      · show (scanM clFuel classes (fuel + 1) (.sequence els) r).2 = r
        simp only [scanM]
        unfold restoreR saveR
        rw [k1]
    | pattern f =>
      refine ⟨?_, rfl⟩
      show (0 : Int) ≤ (match f (r.src.drop r.pos) with | some k => (k : Int) | none => (0 : Int))
      rcases f (r.src.drop r.pos) with _ | k
      · exact Int.le_refl 0
      · exact Int.ofNat_nonneg _

section ClaimC7

/-- If the close literal never matches at or after `pos`, the delimiter
scan loop returns 0 (it can only return a positive count at a close
match). -/
theorem delimLoop_eq_zero_of_no_close (src openL closeL : List Char)
    (escape : Option (List Char)) (multiline nested : Bool) (startPos : Nat)
    (fuel pos depth : Nat)
    (h : ∀ q, pos ≤ q → matchAt src q closeL = false) :
    delimLoop src openL closeL escape multiline nested startPos fuel pos depth = 0 := by
  induction fuel generalizing pos depth with
  | zero => rfl
  | succ fuel ih =>
    unfold delimLoop
    split
    · split
      · exact ih (pos + 2) depth (fun q hq => h q (by omega))
      split
      · exact ih (pos + openL.length) (depth + 1) (fun q hq => h q (by omega))
      split
      next hclose =>
        rw [h pos (Nat.le_refl _)] at hclose
        exact Bool.noConfusion hclose
      split
      · rfl
      · exact ih (pos + 1) depth (fun q hq => h q (by omega))
    · rfl

/-- With no escape and no nesting, in single-line mode the delimiter
scan loop returns 0 whenever a line terminator appears before any close
match. -/
theorem delimLoop_eq_zero_of_newline (src openL closeL : List Char)
    (startPos fuel pos depth p : Nat) (hp : pos ≤ p)
    (hterm : src.get? p = some '\n' ∨ src.get? p = some '\r')
    (hnoclose : ∀ q, pos ≤ q → q ≤ p → matchAt src q closeL = false) :
    delimLoop src openL closeL none false false startPos fuel pos depth = 0 := by
  induction fuel generalizing pos with
  | zero => rfl
  | succ fuel ih =>
    have hplen : p < src.length := by
      rcases hterm with ht | ht <;>
        (by_contra hx; rw [List.get?_eq_none.2 (by omega)] at ht; exact Option.noConfusion ht)
    unfold delimLoop
    rw [if_pos (by omega : pos < src.length)]
    rw [show escMatches none src pos = false from rfl]
    rw [if_neg (by simp)]
    rw [show (false && matchAt src pos openL) = false from by simp, if_neg (by simp)]
    split
    next hclose =>
      rw [hnoclose pos (Nat.le_refl _) hp] at hclose
      exact Bool.noConfusion hclose
    split
    · rfl
    next hno =>
      have hpe : pos ≠ p := by
        intro he
        subst he
        apply hno
        rcases hterm with ht | ht <;> rw [ht] <;> rfl
      exact ih (pos + 1) (by omega) (fun q h1 h2 => hnoclose q (by omega) h2)

/-- C7 (amended): (i) for a delimited matcher with `multiline` false,
*no escape character* and *no nesting*, if a line terminator appears
after the open literal before any occurrence of the close literal, the
scan returns 0; (ii) for every delimited matcher, if the close literal
never occurs at or after the end of the open literal, the scan returns 0
(end of source before close).  With an escape character configured,
part (i) fails as stated in the claim: the escape consumes a following
line terminator, so the scan can succeed across it (see the
counterexample); with nesting, a line terminator inside a nested open
occurrence is likewise skipped. -/
theorem scanM_delimited_fail_cases :
    (∀ (openL closeL : List Char) (r : Reader) (clFuel fuel : Nat)
        (classes : List (String × CharClass)) (p : Nat),
      r.pos + openL.length ≤ p →
      (r.src.get? p = some '\n' ∨ r.src.get? p = some '\r') →
      (∀ q, r.pos + openL.length ≤ q → q ≤ p → matchAt r.src q closeL = false) →
      (scanM clFuel classes fuel (.delimited openL closeL none false false) r).1 = 0) ∧
    (∀ (openL closeL : List Char) (escape : Option (List Char))
        (multiline nested : Bool) (r : Reader) (clFuel fuel : Nat)
        (classes : List (String × CharClass)),
      (∀ q, r.pos + openL.length ≤ q → matchAt r.src q closeL = false) →
      (scanM clFuel classes fuel (.delimited openL closeL escape multiline nested) r).1 = 0) := by
  constructor
  · intro openL closeL r clFuel fuel classes p hp hterm hnoclose
    cases fuel with
    | zero => rfl
    | succ fuel =>
      show scanDelimited openL closeL none false false r = 0
      unfold scanDelimited
      split
      · exact delimLoop_eq_zero_of_newline r.src openL closeL r.pos
          (r.src.length + 1) (r.pos + openL.length) 1 p hp hterm hnoclose
      · rfl
  · intro openL closeL escape multiline nested r clFuel fuel classes hnoclose
    cases fuel with
    | zero => rfl
    | succ fuel =>
      show scanDelimited openL closeL escape multiline nested r = 0
      unfold scanDelimited
      split
      · exact delimLoop_eq_zero_of_no_close r.src openL closeL escape multiline nested
          r.pos (r.src.length + 1) (r.pos + openL.length) 1 hnoclose
      · rfl

/-- C7 counterexample: with an escape character, the claim as stated
fails — on source `"\⏎"` (open quote, backslash, newline, close quote)
the single-line double-quote matcher with escape `\` returns 4, although
a line terminator (position 2) appears after the open literal and before
the close; nesting gives a second counterexample on `(⏎(⏎))` with the
two-character open literal `(⏎`. -/
theorem scanM_delimited_newline_counterexample :
    ((scanM 0 [] 1 (.delimited "\"".toList "\"".toList (some "\\".toList) false false)
        ⟨"\"\\\n\"".toList, 0, 1, 0⟩).1 = 4
      ∧ "\"\\\n\"".toList.get? 2 = some '\n'
      ∧ (0 : Nat) + ("\"".toList).length ≤ 2) ∧
    ((scanM 0 [] 1 (.delimited "(\n".toList ")".toList none false true)
        ⟨"(\n(\n))".toList, 0, 1, 0⟩).1 = 6
      ∧ "(\n(\n))".toList.get? 3 = some '\n'
      ∧ (0 : Nat) + ("(\n".toList).length ≤ 3) := by
  refine ⟨⟨?_, by decide, by decide⟩, ⟨?_, by decide, by decide⟩⟩ <;> decide

/-- Witness for `scanM_delimited_fail_cases` at concrete inputs:
(i) the single-line string matcher on `"a⏎b"` fails; (ii) the
parenthesis matcher on `(abc` (no close before end of input) fails. -/
theorem scanM_delimited_fail_cases_witness :
    (scanM 0 [] 1 (.delimited "\"".toList "\"".toList none false false)
        ⟨"\"a\nb\"".toList, 0, 1, 0⟩).1 = 0 ∧
    (scanM 0 [] 1 (.delimited "(".toList ")".toList none false false)
        ⟨"(abc".toList, 0, 1, 0⟩).1 = 0 := by
  constructor
  · exact scanM_delimited_fail_cases.1 "\"".toList "\"".toList
      ⟨"\"a\nb\"".toList, 0, 1, 0⟩ 0 1 [] 2 (by decide) (by decide)
      (by
        intro q h1 h2
        have h1' : 1 ≤ q := by simpa using h1
        interval_cases q <;> decide)
  · refine scanM_delimited_fail_cases.2 "(".toList ")".toList none false false
      ⟨"(abc".toList, 0, 1, 0⟩ 0 1 [] ?_
    intro q hq
    have hq' : 1 ≤ q := by simpa using hq
    by_cases h4 : q < 4
    · interval_cases q <;> decide
    · unfold matchAt
      rw [List.get?_eq_none.2 (by simp; omega)]
      simp

end ClaimC7

section ClaimC8

theorem digitSepLoop_step (src : List Char) (isD : Char → Bool)
    (sep : Option (List Char)) (fuel pos : Nat) (c : Char)
    (hg : src.get? pos = some c) (hd : isD c = true) :
    digitSepLoop src isD sep (fuel + 1) pos
      = digitSepLoop src isD sep fuel
          (if sepMatches sep src (pos + 1) then pos + 1 + 1 else pos + 1) := by
  rw [show digitSepLoop src isD sep (fuel + 1) pos
      = (match src.get? pos with
        | some c =>
          if isD c = true then
            digitSepLoop src isD sep fuel
              (if sepMatches sep src (pos + 1) then pos + 1 + 1 else pos + 1)
          else pos
        | none => pos) from rfl]
  rw [hg]
  dsimp only
  rw [if_pos hd]

theorem digitSepLoop_stop (src : List Char) (isD : Char → Bool)
    (sep : Option (List Char)) (fuel pos : Nat)
    (h : ∀ c, src.get? pos = some c → isD c = false) :
    digitSepLoop src isD sep fuel pos = pos := by
  cases fuel with
  | zero => rfl
  | succ fuel =>
    unfold digitSepLoop
    rcases hg : src.get? pos with _ | c
    · rfl
    · dsimp only
      rw [if_neg (by rw [h c hg]; exact Bool.false_ne_true)]

/-- C8 (amended): in the digit-scanning loop used by every branch of the
number matcher, every consumed position holds either a digit of the base
being scanned or a separator immediately *preceded* by a digit — but the
match may *end* with such a separator (a consumed separator need not be
followed by a digit, contrary to the claim's "strictly between two
digits"); and the loop consumes nothing unless a digit is at the start,
so separators never count toward the at-least-one-digit requirement. -/
theorem digitSepLoop_sep_after_digit (src : List Char) (isD : Char → Bool)
    (sep : Option (List Char)) (fuel pos : Nat) :
    (∀ q, pos ≤ q → q < digitSepLoop src isD sep fuel pos →
      (∃ c, src.get? q = some c ∧ isD c = true) ∨
      (pos < q ∧ ∃ c, src.get? (q - 1) = some c ∧ isD c = true)) ∧
    (digitSepLoop src isD sep fuel pos = pos ∨
      ∃ c, src.get? pos = some c ∧ isD c = true) := by
  induction fuel generalizing pos with
  | zero =>
    refine ⟨?_, Or.inl rfl⟩
    intro q h1 h2
    rw [show digitSepLoop src isD sep 0 pos = pos from rfl] at h2
    omega
  | succ fuel ih =>
    constructor
    · intro q h1 h2
      rcases hg : src.get? pos with _ | c
      · rw [digitSepLoop_stop src isD sep (fuel + 1) pos
          (by intro c hc; rw [hg] at hc; exact Option.noConfusion hc)] at h2
        omega
      by_cases hd : isD c = true
      · rw [digitSepLoop_step src isD sep fuel pos c hg hd] at h2
        by_cases hq2 : (if sepMatches sep src (pos + 1) then pos + 1 + 1 else pos + 1) ≤ q
        · rcases (ih _).1 q hq2 h2 with hleft | ⟨hlt, hr⟩
          · exact Or.inl hleft
          · refine Or.inr ⟨?_, hr⟩
            split at hlt <;> omega
        · -- q lies in the one or two positions consumed this step
          split at hq2
          · -- a separator was consumed: q = pos or q = pos + 1
            by_cases hqe : q = pos
            · exact Or.inl ⟨c, by rw [hqe]; exact hg, hd⟩
            · refine Or.inr ⟨by omega, c, ?_, hd⟩
              have : q = pos + 1 := by omega
              rw [this]
              simpa using hg
          · -- only the digit was consumed: q = pos
            have hqe : q = pos := by omega
            exact Or.inl ⟨c, by rw [hqe]; exact hg, hd⟩
      · rw [digitSepLoop_stop src isD sep (fuel + 1) pos
          (by intro c2 hc2; rw [hg] at hc2; rw [← Option.some.inj hc2]; exact
            Bool.not_eq_true _ |>.mp hd)] at h2
        omega
    · rcases hg : src.get? pos with _ | c
      · exact Or.inl (digitSepLoop_stop src isD sep (fuel + 1) pos
          (by intro c hc; rw [hg] at hc; exact Option.noConfusion hc))
      by_cases hd : isD c = true
      · exact Or.inr ⟨c, by first | exact hg | rfl, hd⟩
      · exact Or.inl (digitSepLoop_stop src isD sep (fuel + 1) pos
          (by intro c2 hc2; rw [hg] at hc2; rw [← Option.some.inj hc2]; exact
            Bool.not_eq_true _ |>.mp hd))

/-- C8 counterexample: the number matcher with a `_` separator matches
`"1_"` entirely (count 2): the consumed text ends with the separator,
which is therefore not strictly between two digits. -/
theorem scanNumber_trailing_sep_counterexample :
    (scanM 0 [] 1
      (.number { integer := true, separator := some "_".toList })
      ⟨"1_".toList, 0, 1, 0⟩).1 = 2 ∧
    "1_".toList.get? 1 = some '_' ∧ isDigitCh '_' = false := by
  refine ⟨by decide, by decide, by decide⟩

/-- Witness for `digitSepLoop_sep_after_digit` on the concrete scan of
`"1_2"` with separator `_`: position 1 (the separator) is immediately
preceded by the digit at position 0. -/
theorem digitSepLoop_sep_after_digit_witness :
    (∃ c, "1_2".toList.get? 1 = some c ∧ isDigitCh c = true) ∨
    (0 < 1 ∧ ∃ c, "1_2".toList.get? (1 - 1) = some c ∧ isDigitCh c = true) :=
  (digitSepLoop_sep_after_digit "1_2".toList isDigitCh (some "_".toList) 4 0).1
    1 (by decide) (by decide)

end ClaimC8

-- ---------------------------------------------------------------------------
-- State machine and lexer (src/lexer/state-machine.ts, src/lexer/lexer.ts)
-- ---------------------------------------------------------------------------

/-- `TokenTypeDef` from `src/schema/lexer.ts`. -/
structure TokenTypeDef where
  category : String
  subcategory : Option String := none
deriving Repr, DecidableEq

/-- `LexerRule` from `src/schema/lexer.ts` (the `match` field is named
`matcher` here because `match` is reserved in Lean). -/
structure LexerRule where
  matcher : Matcher
  token : String
  push : Option String := none
  pop : Bool := false
  switchTo : Option String := none

/-- `LexerConfig` from `src/schema/lexer.ts` (each `LexerState` is its
rule list; the `indentation` field is not consulted by the lexer engine
and is omitted). -/
structure LexerConfig where
  charClasses : List (String × CharClass) := []
  tokenTypes : List (String × TokenTypeDef)
  states : List (String × List LexerRule)
  initialState : String
  skipTokens : List String := []

/-- JavaScript string truthiness for optional state names (`""` is falsy). -/
def strTruthy : Option String → Option String
  | some s => if s = "" then none else some s
  | none => none

/-- `StateMachine.current`: the top of the stack (modelled head-first). -/
def smCurrent (stack : List String) : String := stack.headD ""

/-- `StateMachine.pop`: never pops the last state. -/
def smPop (stack : List String) : List String :=
  if 1 < stack.length then stack.tail else stack

/-- `StateMachine.switchTo`: replace the top of the stack. -/
def smSwitch (s : String) : List String → List String
  | [] => []
  | _ :: rest => s :: rest

/-- `StateMachine.applyTransition`: exactly one of push / pop / switchTo,
in that priority order (lines 45-57 of `state-machine.ts`). -/
def applyTransition (rule : LexerRule) (stack : List String) : List String :=
  match strTruthy rule.push with
  | some s => s :: stack
  | none =>
    if rule.pop then smPop stack
    else
      match strTruthy rule.switchTo with
      | some s => smSwitch s stack
      | none => stack

/-- `CharReader.position`. -/
def posOf (r : Reader) : Pos := ⟨r.line, r.col, r.pos⟩

/-- The rule loop of `CompiledLexer.tokenize` (lines 59-78 of
`lexer.ts`): scan the state's rules in order against the reader (each
scan receives the reader as the previous one left it) and return the
first with a positive count, together with the reader after the scans. -/
def findRule (clFuel : Nat) (classes : List (String × CharClass)) (mFuel : Nat) :
    List LexerRule → Reader → Reader × Option (Nat × LexerRule)
  | [], r => (r, none)
  | rule :: rest, r =>
    let nr := scanM clFuel classes mFuel rule.matcher r
    if 0 < nr.1 then (nr.2, some (nr.1.toNat, rule))
    else findRule clFuel classes mFuel rest nr.2

/-- The main loop of `CompiledLexer.tokenize` (lines 45-94 of
`lexer.ts`): while not at end of input, find the first matching rule of
the current state; on a match advance by the scanned count and emit a
token with the consumed slice and the category from the token-type table
(`plain` when absent), applying the rule's state transition; otherwise
consume one character and emit an `error` token.  `none` models the
`Unknown lexer state` exception (and fuel exhaustion, which cannot occur
from `tokenize` below since every iteration consumes at least one
byte). -/
def tokenizeLoop (cfg : LexerConfig) (clFuel mFuel : Nat) :
    Nat → List String → Reader → List Token → Option (List Token)
  | 0, _, r, acc => if r.pos < r.src.length then none else some acc.reverse
  | fuel + 1, stack, r, acc =>
    if r.pos < r.src.length then
      match cfg.states.lookup (smCurrent stack) with
      | none => none
      | some rules =>
        let startPos := posOf r
        match findRule clFuel cfg.charClasses mFuel rules r with
        | (r1, some (n, rule)) =>
          let vr := Reader.advanceN n r1
          let tok : Token :=
            { type := rule.token
              value := vr.1
              category := match cfg.tokenTypes.lookup rule.token with
                | some td => td.category
                | none => "plain"
              range := ⟨startPos, posOf vr.2⟩ }
          tokenizeLoop cfg clFuel mFuel fuel (applyTransition rule stack) vr.2 (tok :: acc)
        | (r1, none) =>
          let vr := Reader.advance r1
          tokenizeLoop cfg clFuel mFuel fuel stack vr.2
            ({ type := "error", value := vr.1, category := "error",
               range := ⟨startPos, posOf vr.2⟩ } :: acc)
    else some acc.reverse

/-- `CompiledLexer.tokenize` on a fresh reader and a state stack holding
the initial state.  The fuel `src.length` is enough for the whole run
because every iteration consumes at least one byte. -/
def tokenize (cfg : LexerConfig) (clFuel mFuel : Nat) (src : List Char) :
    Option (List Token) :=
  tokenizeLoop cfg clFuel mFuel src.length [cfg.initialState] ⟨src, 0, 1, 0⟩ []

section LexerLemmas

theorem findRule_reader (clFuel : Nat) (classes : List (String × CharClass))
    (mFuel : Nat) (rules : List LexerRule) (r : Reader) :
    (findRule clFuel classes mFuel rules r).1 = r := by
  induction rules generalizing r with
  | nil => rfl
  | cons rule rest ih =>
    unfold findRule
    dsimp only
    split
    · exact (scanM_frame clFuel classes mFuel rule.matcher r).2
    · rw [ih]
      exact (scanM_frame clFuel classes mFuel rule.matcher r).2

theorem sliceList_append_drop (src : List Char) (a b : Nat) (h : a ≤ b) :
    Reader.sliceList src a b ++ src.drop b = src.drop a := by
  unfold Reader.sliceList
  have hb : src.drop b = (src.drop a).drop (b - a) := by
    rw [List.drop_drop]
    congr 1
    omega
  rw [hb, List.take_append_drop]

theorem sliceList_ne_nil (src : List Char) (a b : Nat) (hab : a < b)
    (ha : a < src.length) : Reader.sliceList src a b ≠ [] := by
  rw [sliceList_cons src a b hab (src.get ⟨a, ha⟩) (List.get?_eq_get ha)]
  exact List.cons_ne_nil _ _

theorem findRule_pos (clFuel : Nat) (classes : List (String × CharClass))
    (mFuel : Nat) (rules : List LexerRule) (r : Reader) (n : Nat)
    (rule : LexerRule)
    (h : (findRule clFuel classes mFuel rules r).2 = some (n, rule)) : 1 ≤ n := by
  induction rules generalizing r with
  | nil => exact Option.noConfusion h
  | cons rl rest ih =>
    unfold findRule at h
    dsimp only at h
    split at h
    next hpos =>
      dsimp only at h
      have hinj := Option.some.inj h
      have hn := congrArg Prod.fst hinj
      dsimp only at hn
      omega
    · exact ih _ h

/-- The combined loop invariant for C1 and C9: a successful run appends
to the accumulator a list of tokens with non-empty values, at most one
per remaining byte, whose values concatenate to the remaining source —
the latter provided no `error` token carrying a bare `"\r"` was
emitted. -/
theorem tokenizeLoop_spec (cfg : LexerConfig) (clFuel mFuel : Nat) :
    ∀ (fuel : Nat) (stack : List String) (r : Reader) (acc : List Token)
      (ts : List Token),
      tokenizeLoop cfg clFuel mFuel fuel stack r acc = some ts →
      ∃ rest, ts = acc.reverse ++ rest ∧
        (∀ t ∈ rest, t.value ≠ []) ∧
        rest.length ≤ r.src.length - r.pos ∧
        ((∀ t ∈ rest, t.type = "error" → t.value ≠ ['\r']) →
          (rest.map Token.value).flatten = r.src.drop r.pos) := by
  intro fuel
  induction fuel with
  | zero =>
    intro stack r acc ts h
    rw [show tokenizeLoop cfg clFuel mFuel 0 stack r acc
        = if r.pos < r.src.length then none else some acc.reverse from rfl] at h
    split at h
    · exact Option.noConfusion h
    next hge =>
      refine ⟨[], by rw [← Option.some.inj h]; simp, by simp, by simp, ?_⟩
      intro _
      rw [List.drop_eq_nil_of_le (by omega)]
      simp
  | succ fuel ih =>
    intro stack r acc ts h
    unfold tokenizeLoop at h
    split at h
    next hlt =>
      rcases hlook : cfg.states.lookup (smCurrent stack) with _ | rules <;>
        rw [hlook] at h
      · exact Option.noConfusion h
      dsimp only at h
      rcases hfind : findRule clFuel cfg.charClasses mFuel rules r with ⟨r1, ores⟩
      have hr1 : r1 = r := by
        have hq := findRule_reader clFuel cfg.charClasses mFuel rules r
        rw [hfind] at hq
        exact hq
      rw [hfind] at h
      rcases ores with _ | ⟨n, rule⟩
      · -- no rule matched: error token, single advance
        dsimp only at h
        rw [hr1] at h
        rcases hg : r.src.get? r.pos with _ | c
        · rw [List.get?_eq_none] at hg; omega
        obtain ⟨rest', hts, hne, hlen, hjoin⟩ := ih _ _ _ _ h
        have hadv2 : (Reader.advance r).1 = [c] ∧ r.pos < (Reader.advance r).2.pos ∧
            (Reader.advance r).2.pos ≤ r.src.length ∧ (Reader.advance r).2.src = r.src ∧
            ((Reader.advance r).2.pos = r.pos + 1 ∨
              (c = '\r' ∧ (Reader.advance r).2.pos = r.pos + 2)) := by
          by_cases hnl : c = '\n'
          · subst hnl
            rw [advance_eq_nl r hg]
            exact ⟨rfl, by dsimp only; omega, by dsimp only; omega, rfl, Or.inl rfl⟩
          by_cases hcr : c = '\r'
          · subst hcr
            by_cases hnext : r.src.get? (r.pos + 1) = some '\n'
            · rw [advance_eq_crlf r hg hnext]
              have hl2 : r.pos + 1 < r.src.length := by
                by_contra hx
                rw [List.get?_eq_none.2 (by omega)] at hnext
                exact Option.noConfusion hnext
              exact ⟨rfl, by dsimp only; omega, by dsimp only; omega, rfl, Or.inr ⟨rfl, rfl⟩⟩
            · rw [advance_eq_cr r hg hnext]
              exact ⟨rfl, by dsimp only; omega, by dsimp only; omega, rfl, Or.inl rfl⟩
          · rw [advance_eq_other r c hg hnl hcr]
            exact ⟨rfl, by dsimp only; omega, by dsimp only; omega, rfl, Or.inl rfl⟩
        obtain ⟨hv, hlt2, hle2, hsrc2, hcase⟩ := hadv2
        rw [hsrc2] at hlen hjoin
        refine ⟨{ type := "error", value := (Reader.advance r).1, category := "error",
                  range := ⟨posOf r, posOf (Reader.advance r).2⟩ } :: rest',
          ?_, ?_, ?_, ?_⟩
        · rw [hts]
          simp
        · intro t ht
          rcases List.mem_cons.mp ht with hh | hh
          · rw [hh]
            show (Reader.advance r).1 ≠ []
            rw [hv]
            exact List.cons_ne_nil _ _
          · exact hne t hh
        · simp only [List.length_cons]
          omega
        · intro herr
          have hcne : ¬ c = '\r' := by
            intro hce
            have hx := herr _ (List.mem_cons_self _ _) rfl
            rw [hv, hce] at hx
            exact hx rfl
          have hpos1 : (Reader.advance r).2.pos = r.pos + 1 := by
            rcases hcase with hh | ⟨hh, _⟩
            · exact hh
            · exact absurd hh hcne
          have hdrop : r.src.drop r.pos = c :: r.src.drop (r.pos + 1) := by
            rw [List.drop_eq_get_cons hlt]
            congr 1
            rw [List.get?_eq_get hlt] at hg
            exact Option.some.inj hg
          simp only [List.map_cons, List.flatten_cons]
          rw [hjoin (fun t ht hterr => herr t (List.mem_cons_of_mem _ ht) hterr),
            hpos1, hdrop]
          show (Reader.advance r).1 ++ _ = _
          rw [hv]
          rfl
      · -- a rule matched: advanceN by the positive scanned count
        dsimp only at h
        rw [hr1] at h
        have hn1 : 1 ≤ n := by
          refine findRule_pos clFuel cfg.charClasses mFuel rules r n rule ?_
          rw [hfind]
        have hsrcN : (Reader.advanceN n r).2.src = r.src := by
          show (Reader.advanceNAux n r).src = r.src
          exact advanceNAux_src n r
        have hltN : r.pos < (Reader.advanceNAux n r).pos :=
          advanceNAux_pos_lt n r (by omega) hlt
        have hleN : (Reader.advanceNAux n r).pos ≤ r.src.length :=
          advanceNAux_pos_bound n r (by omega)
        have hval : (Reader.advanceN n r).1
            = Reader.sliceList r.src r.pos (Reader.advanceNAux n r).pos := rfl
        obtain ⟨rest', hts, hne, hlen, hjoin⟩ := ih _ _ _ _ h
        rw [hsrcN] at hlen hjoin
        rw [show (Reader.advanceN n r).2.pos = (Reader.advanceNAux n r).pos from rfl]
          at hlen hjoin
        refine ⟨{ type := rule.token, value := (Reader.advanceN n r).1,
                  category := (match cfg.tokenTypes.lookup rule.token with
                    | some td => td.category
                    | none => "plain"),
                  range := ⟨posOf r, posOf (Reader.advanceN n r).2⟩ } :: rest',
          ?_, ?_, ?_, ?_⟩
        · rw [hts]
          simp
        · intro t ht
          rcases List.mem_cons.mp ht with hh | hh
          · rw [hh]
            show (Reader.advanceN n r).1 ≠ []
            rw [hval]
            exact sliceList_ne_nil r.src r.pos _ hltN hlt
          · exact hne t hh
        · simp only [List.length_cons]
          omega
        · intro herr
          simp only [List.map_cons, List.flatten_cons]
          rw [hjoin (fun t ht hterr => herr t (List.mem_cons_of_mem _ ht) hterr)]
          show (Reader.advanceN n r).1 ++ _ = _
          rw [hval]
          exact sliceList_append_drop r.src r.pos _ (by omega)
    next hge =>
      refine ⟨[], by rw [← Option.some.inj h]; simp, by simp, by simp, ?_⟩
      intro _
      rw [List.drop_eq_nil_of_le (by omega)]
      simp


end LexerLemmas

section ClaimsC1C9

/-- A minimal configuration whose single state has no rules: every
character goes through the lexer's error branch. -/
def cfgEmptyRules : LexerConfig :=
  { tokenTypes := [], states := [("main", [])], initialState := "main" }

/-- C1 (amended): concatenating the value fields of all tokens returned
by `tokenize`, in stream order, equals the source byte-for-byte,
*provided* the error branch never fires at a carriage return (no `error`
token has value `"\r"`).  When the error branch fires at a `\r\n` pair
the lexer consumes both characters but records only `"\r"` as the
token's value, so coverage fails there — see the counterexample. -/
theorem tokenize_coverage (cfg : LexerConfig) (clFuel mFuel : Nat)
    (src : List Char) (ts : List Token)
    (h : tokenize cfg clFuel mFuel src = some ts)
    (herr : ∀ t ∈ ts, t.type = "error" → t.value ≠ ['\r']) :
    (ts.map Token.value).flatten = src := by
  obtain ⟨rest, hts, hne, hlen, hjoin⟩ := tokenizeLoop_spec cfg clFuel mFuel
    src.length [cfg.initialState] ⟨src, 0, 1, 0⟩ [] ts h
  simp only [List.reverse_nil, List.nil_append] at hts
  subst hts
  rw [hjoin herr]
  exact List.drop_zero src

/-- C1 counterexample: a profile whose state has no rules, on the source
`"\r\n"` — the error branch fires at the `\r\n` pair, consumes both
bytes, and the single returned token has value `"\r"`; the concatenation
of the values is `"\r"`, not the source `"\r\n"`. -/
theorem tokenize_coverage_counterexample :
    tokenize cfgEmptyRules 0 0 "\r\n".toList
      = some [{ type := "error", value := ['\r'], category := "error",
                range := ⟨⟨1, 0, 0⟩, ⟨2, 0, 2⟩⟩ }] ∧
    (([{ type := "error", value := ['\r'], category := "error",
         range := ⟨⟨1, 0, 0⟩, ⟨2, 0, 2⟩⟩ }] : List Token).map Token.value).flatten
      ≠ "\r\n".toList := by
  refine ⟨by decide, by decide⟩

/-- Witness for `tokenize_coverage`: on the source `"ab"` under the
no-rules profile, the two error tokens `a`, `b` concatenate back to the
source. -/
theorem tokenize_coverage_witness :
    ((((tokenize cfgEmptyRules 0 0 "ab".toList).getD []).map Token.value).flatten
      = "ab".toList) :=
  tokenize_coverage cfgEmptyRules 0 0 "ab".toList
    ((tokenize cfgEmptyRules 0 0 "ab".toList).getD []) (by decide) (by decide)

/-- C9: every token returned by `tokenize` has a non-empty value — the
rule-match branch only fires for a positive scan count and the error
branch consumes at least one character — so the returned token list has
at most `|source|` entries. -/
theorem tokenize_values_nonempty (cfg : LexerConfig) (clFuel mFuel : Nat)
    (src : List Char) (ts : List Token)
    (h : tokenize cfg clFuel mFuel src = some ts) :
    (∀ t ∈ ts, t.value ≠ []) ∧ ts.length ≤ src.length := by
  obtain ⟨rest, hts, hne, hlen, hjoin⟩ := tokenizeLoop_spec cfg clFuel mFuel
    src.length [cfg.initialState] ⟨src, 0, 1, 0⟩ [] ts h
  simp only [List.reverse_nil, List.nil_append] at hts
  subst hts
  exact ⟨hne, by simpa using hlen⟩

/-- Witness for `tokenize_values_nonempty` on the source `"ab"` under the
no-rules profile. -/
theorem tokenize_values_nonempty_witness :
    (∀ t ∈ (tokenize cfgEmptyRules 0 0 "ab".toList).getD [], t.value ≠ []) ∧
    ((tokenize cfgEmptyRules 0 0 "ab".toList).getD []).length ≤ ("ab".toList).length :=
  tokenize_values_nonempty cfgEmptyRules 0 0 "ab".toList
    ((tokenize cfgEmptyRules 0 0 "ab".toList).getD []) (by decide)

end ClaimsC1C9

-- ---------------------------------------------------------------------------
-- Block tracker (src/parser/block-tracker.ts)
-- ---------------------------------------------------------------------------

/-- `BlockRule` from `src/schema/structure.ts` (`open`/`close` renamed
`openL`/`closeL` since `open` is reserved in Lean). -/
structure BlockRule where
  name : String
  openL : List Char
  closeL : List Char
deriving Repr, DecidableEq

/-- `BlockSpan` from `src/parser/block-tracker.ts`. -/
structure BlockSpan where
  name : String
  openIndex : Nat
  closeIndex : Nat
  depth : Nat
deriving Repr, DecidableEq

/-- Lookup in the open/close maps of `findBlockSpans` (lines 43-48):
the maps are built with `Map.set`, so for duplicated literals the
*last* rule wins. -/
def lookupLast (f : BlockRule → List Char) (rules : List BlockRule)
    (val : List Char) : Option BlockRule :=
  rules.reverse.find? (fun rule => f rule = val)

/-- A work-stack frame of `findBlockSpans` (line 52), top of the stack
first. -/
structure BlockFrame where
  name : String
  openIndex : Nat
  depth : Nat
deriving Repr, DecidableEq

/-- The top-down stack search and truncation of `findBlockSpans` lines
66-79: find the nearest frame with the given rule name; everything above
it (before it in the head-first list) is discarded. -/
def popTo (nm : String) : List BlockFrame → Option (BlockFrame × List BlockFrame)
  | [] => none
  | f :: rest => if f.name = nm then some (f, rest) else popTo nm rest

/-- The token walk of `findBlockSpans` (lines 54-81): open literals push
a frame carrying the current stack depth; close literals emit a span for
the nearest matching frame (dropping intervening unmatched opens) or are
dropped silently; unmatched opens at end of input produce no span. -/
def blockLoop (rules : List BlockRule) : List Token → Nat → List BlockFrame → List BlockSpan
  | [], _, _ => []
  | t :: rest, i, stack =>
    match lookupLast BlockRule.openL rules t.value with
    | some r => blockLoop rules rest (i + 1) (⟨r.name, i, stack.length⟩ :: stack)
    | none =>
      match lookupLast BlockRule.closeL rules t.value with
      | some r =>
        match popTo r.name stack with
        | some (f, stack2) =>
          ⟨f.name, f.openIndex, i, f.depth⟩ :: blockLoop rules rest (i + 1) stack2
        | none => blockLoop rules rest (i + 1) stack
      | none => blockLoop rules rest (i + 1) stack

/-- Span ordering by `openIndex` (the comparator of line 83). -/
def spanLe (a b : BlockSpan) : Prop := a.openIndex ≤ b.openIndex

instance : DecidableRel spanLe :=
  fun a b => inferInstanceAs (Decidable (a.openIndex ≤ b.openIndex))

instance : IsTotal BlockSpan spanLe := ⟨fun a b => Nat.le_total _ _⟩

instance : IsTrans BlockSpan spanLe := ⟨fun _ _ _ => Nat.le_trans⟩

/-- `findBlockSpans` from `src/parser/block-tracker.ts` lines 38-85. -/
def findBlockSpans (tokens : List Token) (blockRules : List BlockRule) : List BlockSpan :=
  (blockLoop blockRules tokens 0 []).insertionSort spanLe

/-- `findNextBlock` from `src/parser/block-tracker.ts` lines 105-116:
the first span in order whose `openIndex` is at least `afterIndex` and
whose name matches. -/
def findNextBlock (spans : List BlockSpan) (afterIndex : Nat) (blockName : String) :
    Option BlockSpan :=
  spans.find? (fun span => afterIndex ≤ span.openIndex && span.name = blockName)

section ClaimC6

theorem lookupLast_mem (f : BlockRule → List Char) (rules : List BlockRule)
    (val : List Char) (r : BlockRule) (h : lookupLast f rules val = some r) :
    r ∈ rules ∧ f r = val := by
  unfold lookupLast at h
  have hm := List.mem_of_find?_eq_some h
  have hp := List.find?_some h
  refine ⟨List.mem_reverse.mp hm, by simpa using hp⟩

theorem popTo_mem (nm : String) (stack : List BlockFrame) (f : BlockFrame)
    (stack2 : List BlockFrame) (h : popTo nm stack = some (f, stack2)) :
    f ∈ stack ∧ f.name = nm ∧ ∀ g ∈ stack2, g ∈ stack := by
  induction stack generalizing stack2 with
  | nil => exact Option.noConfusion h
  | cons top rest ih =>
    unfold popTo at h
    split at h
    next he =>
      have hinj := Option.some.inj h
      have h1 := congrArg Prod.fst hinj
      have h2 := congrArg Prod.snd hinj
      dsimp only at h1 h2
      subst h1
      subst h2
      exact ⟨List.mem_cons_self _ _, he, fun g hg => List.mem_cons_of_mem _ hg⟩
    · obtain ⟨hm, hn, hsub⟩ := ih stack2 h
      exact ⟨List.mem_cons_of_mem _ hm, hn,
        fun g hg => List.mem_cons_of_mem _ (hsub g hg)⟩

/-- The stack invariant of the block-tracker walk: every frame records
an earlier open token whose value is the open literal of a rule with the
frame's name. -/
def frameInv (rules : List BlockRule) (tokens : List Token) (i : Nat)
    (stack : List BlockFrame) : Prop :=
  ∀ f ∈ stack, f.openIndex < i ∧ ∃ r ∈ rules, r.name = f.name ∧
    ∃ t, tokens.get? f.openIndex = some t ∧ t.value = r.openL

theorem blockLoop_spans (rules : List BlockRule) (tokens : List Token) :
    ∀ (rem : List Token) (i : Nat) (stack : List BlockFrame),
      rem = tokens.drop i →
      frameInv rules tokens i stack →
      ∀ s ∈ blockLoop rules rem i stack,
        s.openIndex < s.closeIndex ∧ s.closeIndex < tokens.length ∧
        (∃ r ∈ rules, r.name = s.name ∧
          ∃ t, tokens.get? s.openIndex = some t ∧ t.value = r.openL) ∧
        (∃ r ∈ rules, r.name = s.name ∧
          ∃ t, tokens.get? s.closeIndex = some t ∧ t.value = r.closeL) := by
  intro rem
  induction rem with
  | nil => intro i stack _ _ s hs; exact absurd hs (List.not_mem_nil s)
  | cons t rest ih =>
    intro i stack hdrop hinv s hs
    have hget : tokens.get? i = some t := by
      have h0 : (tokens.drop i).get? 0 = tokens.get? (i + 0) := List.get?_drop tokens i 0
      rw [← hdrop] at h0
      simpa using h0.symm
    have hrest : rest = tokens.drop (i + 1) := by
      calc rest = (t :: rest).tail := rfl
        _ = (tokens.drop i).tail := by rw [hdrop]
        _ = (tokens.drop i).drop 1 := (List.drop_one _).symm
        _ = tokens.drop (i + 1) := List.drop_drop 1 i tokens
    have hilen : i < tokens.length := by
      by_contra hx
      rw [List.get?_eq_none.2 (by omega)] at hget
      exact Option.noConfusion hget
    unfold blockLoop at hs
    rcases hopen : lookupLast BlockRule.openL rules t.value with _ | r <;>
      rw [hopen] at hs
    case some =>
      dsimp only at hs
      refine ih (i + 1) _ hrest ?_ s hs
      intro f hf
      rcases List.mem_cons.mp hf with he | hf2
      · subst he
        obtain ⟨hmem, hval⟩ := lookupLast_mem _ _ _ _ hopen
        exact ⟨by dsimp only; omega, r, hmem, rfl, t, hget, hval.symm⟩
      · obtain ⟨h1, h2⟩ := hinv f hf2
        exact ⟨by omega, h2⟩
    case none =>
      rcases hclose : lookupLast BlockRule.closeL rules t.value with _ | r <;>
        rw [hclose] at hs
      case none =>
        refine ih (i + 1) stack hrest ?_ s hs
        intro f hf
        obtain ⟨h1, h2⟩ := hinv f hf
        exact ⟨by omega, h2⟩
      case some =>
        dsimp only at hs
        rcases hpop : popTo r.name stack with _ | ⟨f, stack2⟩ <;>
          rw [hpop] at hs
        case none =>
          refine ih (i + 1) stack hrest ?_ s hs
          intro g hg
          obtain ⟨h1, h2⟩ := hinv g hg
          exact ⟨by omega, h2⟩
        case some =>
          obtain ⟨hfmem, hfname, hsub⟩ := popTo_mem _ _ _ _ hpop
          rcases List.mem_cons.mp hs with he | hs2
          · subst he
            obtain ⟨hflt, ropen, hrmem, hrname, topen, htopen, hvopen⟩ := hinv f hfmem
            obtain ⟨hcmem, hcval⟩ := lookupLast_mem _ _ _ _ hclose
            refine ⟨hflt, hilen, ⟨ropen, hrmem, hrname, topen, htopen, hvopen⟩,
              r, hcmem, ?_, t, hget, hcval.symm⟩
            exact hfname.symm
          · refine ih (i + 1) stack2 hrest ?_ s hs2
            intro g hg
            obtain ⟨h1, h2⟩ := hinv g (hsub g hg)
            exact ⟨by omega, h2⟩

/-- C6: every span returned by `findBlockSpans` satisfies
`openIndex < closeIndex` and (trivially, as a natural number)
`depth ≥ 0`; the token at `openIndex` has the span's rule's open literal
as its value and the token at `closeIndex` has that rule's close
literal as its value (rule names are assumed pairwise distinct so that
"the span's rule" is well defined); and the returned list is sorted by
`openIndex`.  Unmatched closes and opens left on the stack at end of
input produce no span (they simply never reach the emit in the walk). -/
theorem findBlockSpans_wf (tokens : List Token) (rules : List BlockRule)
    (hnd : (rules.map BlockRule.name).Nodup) :
    (∀ s ∈ findBlockSpans tokens rules,
      s.openIndex < s.closeIndex ∧ s.closeIndex < tokens.length ∧ 0 ≤ s.depth ∧
      ∃ r ∈ rules, r.name = s.name ∧
        (∃ t, tokens.get? s.openIndex = some t ∧ t.value = r.openL) ∧
        (∃ t, tokens.get? s.closeIndex = some t ∧ t.value = r.closeL)) ∧
    (findBlockSpans tokens rules).Sorted spanLe := by
  constructor
  · intro s hs
    have hmem : s ∈ blockLoop rules tokens 0 [] :=
      (List.perm_insertionSort spanLe (blockLoop rules tokens 0 [])).mem_iff.mp hs
    obtain ⟨h1, h2, ⟨ro, hro, hron, t1, ht1, hvo⟩, rc, hrc, hrcn, t2, ht2, hvc⟩ :=
      blockLoop_spans rules tokens tokens 0 [] rfl
        (fun f hf => absurd hf (List.not_mem_nil f)) s hmem
    have : ro = rc := List.inj_on_of_nodup_map hnd hro hrc (by rw [hron, hrcn])
    subst this
    exact ⟨h1, h2, Nat.zero_le _, ro, hro, hron, ⟨t1, ht1, hvo⟩, t2, ht2, hvc⟩
  · exact List.sorted_insertionSort spanLe _

/-- Witness for `findBlockSpans_wf`: the brace rule on the token values
`{`, `x`, `}`. -/
theorem findBlockSpans_wf_witness :
    (∀ s ∈ findBlockSpans
        [⟨"punctuation", "\x7b".toList, "punctuation", ⟨⟨1, 0, 0⟩, ⟨1, 1, 1⟩⟩⟩,
         ⟨"identifier", "x".toList, "identifier", ⟨⟨1, 1, 1⟩, ⟨1, 2, 2⟩⟩⟩,
         ⟨"punctuation", "\x7d".toList, "punctuation", ⟨⟨1, 2, 2⟩, ⟨1, 3, 3⟩⟩⟩]
        [⟨"braces", "\x7b".toList, "\x7d".toList⟩],
      s.openIndex < s.closeIndex ∧ s.closeIndex < 3 ∧ 0 ≤ s.depth ∧
      ∃ r ∈ [(⟨"braces", "\x7b".toList, "\x7d".toList⟩ : BlockRule)], r.name = s.name ∧
        (∃ t, [⟨"punctuation", "\x7b".toList, "punctuation", ⟨⟨1, 0, 0⟩, ⟨1, 1, 1⟩⟩⟩,
               ⟨"identifier", "x".toList, "identifier", ⟨⟨1, 1, 1⟩, ⟨1, 2, 2⟩⟩⟩,
               (⟨"punctuation", "\x7d".toList, "punctuation", ⟨⟨1, 2, 2⟩, ⟨1, 3, 3⟩⟩⟩ : Token)].get? s.openIndex
            = some t ∧ t.value = r.openL) ∧
        (∃ t, [⟨"punctuation", "\x7b".toList, "punctuation", ⟨⟨1, 0, 0⟩, ⟨1, 1, 1⟩⟩⟩,
               ⟨"identifier", "x".toList, "identifier", ⟨⟨1, 1, 1⟩, ⟨1, 2, 2⟩⟩⟩,
               (⟨"punctuation", "\x7d".toList, "punctuation", ⟨⟨1, 2, 2⟩, ⟨1, 3, 3⟩⟩⟩ : Token)].get? s.closeIndex
            = some t ∧ t.value = r.closeL)) ∧
    (findBlockSpans
        [⟨"punctuation", "\x7b".toList, "punctuation", ⟨⟨1, 0, 0⟩, ⟨1, 1, 1⟩⟩⟩,
         ⟨"identifier", "x".toList, "identifier", ⟨⟨1, 1, 1⟩, ⟨1, 2, 2⟩⟩⟩,
         ⟨"punctuation", "\x7d".toList, "punctuation", ⟨⟨1, 2, 2⟩, ⟨1, 3, 3⟩⟩⟩]
        [⟨"braces", "\x7b".toList, "\x7d".toList⟩]).Sorted spanLe :=
  findBlockSpans_wf _ _ (by decide)

end ClaimC6

-- ---------------------------------------------------------------------------
-- Symbol detector (src/parser/symbol-detector.ts, src/schema/structure.ts)
-- ---------------------------------------------------------------------------

/-- `TokenPatternStep` from `src/schema/structure.ts`: match / skip /
optional / any-of.  The `skip` constructor keeps the runtime boolean of
`"skip" in step && step.skip` (a `skip: false` step matches no branch of
`tryMatch` and fails the pattern). -/
inductive Step where
  | skip (flag : Bool) (maxTokens : Option Nat)
  | optional (s : Step)
  | anyOf (alts : List Step)
  | tok (token : String) (value : Option (List Char)) (capture : Option String)

/-- `matchTokenStep` from `symbol-detector.ts` lines 482-489. -/
def matchTokenStep (t : Token) (tokName : String) (value : Option (List Char)) : Bool :=
  t.type = tokName && (match value with | some v => t.value = v | none => true)

/-- The capture stores of `tryMatch`: `captures` (name → value) and
`captureIndices` (name → filtered index).  JavaScript object assignment
is modelled by prepending; `lookup` finds the latest write. -/
structure Caps where
  vals : List (String × List Char)
  idxs : List (String × Nat)
deriving Repr, DecidableEq

def setCap (caps : Caps) (nm : String) (v : List Char) (i : Nat) : Caps :=
  ⟨(nm, v) :: caps.vals, (nm, i) :: caps.idxs⟩

/-- `matchSingleStep` from `symbol-detector.ts` lines 461-480: a token
step matches by type/value and records its capture; an any-of step tries
its alternatives in order; skip and optional steps never match.  Returns
the updated captures on success.  The fuel bounds the nesting depth of
`anyOf` steps (the source recurses structurally on the finite step). -/
def matchSingleStep (t : Token) (caps : Caps) (index : Nat) :
    Nat → Step → Option Caps
  | 0, _ => none
  | _ + 1, .tok nm v cap =>
    if matchTokenStep t nm v then
      some (match cap with
        | some cname => setCap caps cname t.value index
        | none => caps)
    else none
  | fuel + 1, .anyOf alts =>
    alts.foldl (fun acc alt =>
      match acc with
      | some c => some c
      | none => matchSingleStep t caps index fuel alt) none
  | _ + 1, .skip _ _ => none
  | _ + 1, .optional _ => none

/-- A filtered token with its original index (`symbol-detector.ts`
lines 300-306). -/
structure FTok where
  token : Token
  originalIndex : Nat
deriving Repr, DecidableEq

/-- The inner search of the skip step (`tryMatch` lines 406-413): scan
forward up to the limit for a token matching the next step.  `count` is
`limit - si`. -/
def skipFind (sFuel : Nat) (filtered : List FTok) (next : Step) (caps : Caps) :
    Nat → Nat → Option (Nat × Caps)
  | _, 0 => none
  | si, count + 1 =>
    match filtered.get? si with
    | some ft =>
      match matchSingleStep ft.token caps si sFuel next with
      | some caps2 => some (si, caps2)
      | none => skipFind sFuel filtered next caps (si + 1) count
    | none => none

/-- The pattern loop of `tryMatch` (`symbol-detector.ts` lines 386-459):
process the pattern steps in order against the filtered tokens from
`idx`, returning the end index and captures on success.  The
`filtered.length ≤ idx` guard at the top of each iteration fails the
whole pattern when the stream is exhausted, whatever the remaining step
is (including optional steps).  A skip step searches ahead for the
following step and consumes it too. -/
def tryMatchLoop (sFuel : Nat) (filtered : List FTok) :
    List Step → Nat → Caps → Option (Nat × Caps)
  | [], idx, caps => some (idx, caps)
  | step :: rest, idx, caps =>
    if filtered.length ≤ idx then none
    else
      match step with
      | .skip flag maxTokens =>
        if flag then
          match rest with
          | [] => none
          | next :: rest2 =>
            let limit := min (idx + maxTokens.getD 50) filtered.length
            match skipFind sFuel filtered next caps idx (limit - idx) with
            | some (si, caps2) => tryMatchLoop sFuel filtered rest2 (si + 1) caps2
            | none => none
        else none
      | .optional inner =>
        match filtered.get? idx with
        | some ft =>
          match matchSingleStep ft.token caps idx sFuel inner with
          | some caps2 => tryMatchLoop sFuel filtered rest (idx + 1) caps2
          | none => tryMatchLoop sFuel filtered rest idx caps
        | none => none
      | .anyOf alts =>
        match filtered.get? idx with
        | some ft =>
          match matchSingleStep ft.token caps idx sFuel (.anyOf alts) with
          | some caps2 => tryMatchLoop sFuel filtered rest (idx + 1) caps2
          | none => none
        | none => none
      | .tok nm v cap =>
        match filtered.get? idx with
        | some ft =>
          if matchTokenStep ft.token nm v then
            tryMatchLoop sFuel filtered rest (idx + 1)
              (match cap with
                | some cname => setCap caps cname ft.token.value idx
                | none => caps)
          else none
        | none => none

/-- `PatternMatch` from `symbol-detector.ts` lines 278-288. -/
structure PMatch where
  startIndex : Nat
  endIndex : Nat
  caps : Caps
deriving Repr, DecidableEq

/-- `tryMatch` (`symbol-detector.ts` lines 386-459). -/
def tryMatch (sFuel : Nat) (filtered : List FTok) (startIdx : Nat)
    (pattern : List Step) : Option PMatch :=
  match tryMatchLoop sFuel filtered pattern startIdx ⟨[], []⟩ with
  | some (endIdx, caps) => some ⟨startIdx, endIdx, caps⟩
  | none => none

/-- `SymbolRule` from `src/schema/structure.ts`. -/
structure SymbolRule where
  name : List Char
  kind : String
  pattern : List Step
  hasBody : Bool := false
  bodyStyle : Option String := none
  endKeyword : Option (List Char) := none
  nested : Bool := false

/-- `CodeSymbol` from `src/types/tree.ts` as used by the detector. -/
structure CodeSymbol where
  name : List Char
  kind : String
  nameRange : Range
  contentRange : Range
deriving Repr, DecidableEq

/-- The filtered view of the token stream (`detectSymbols` lines
300-306): tokens whose type is in the skip set are omitted, the original
index is preserved. -/
def buildFilteredAux (skipTokens : List String) : List Token → Nat → List FTok
  | [], _ => []
  | t :: rest, i =>
    if skipTokens.contains t.type then buildFilteredAux skipTokens rest (i + 1)
    else ⟨t, i⟩ :: buildFilteredAux skipTokens rest (i + 1)

def buildFiltered (tokens : List Token) (skipTokens : List String) : List FTok :=
  buildFilteredAux skipTokens tokens 0

/-- `findIndentationEndIndex` loop (`symbol-detector.ts` lines 504-527). -/
def indentEndLoop (tokens : List Token) (baseIndent : Nat) :
    Nat → Nat → Nat → Bool → Nat
  | 0, _, lastContentIndex, _ => lastContentIndex
  | fuel + 1, i, lastContentIndex, foundBody =>
    match tokens.get? i with
    | none => lastContentIndex
    | some tok =>
      if tok.category = "whitespace" || tok.category = "newline" then
        indentEndLoop tokens baseIndent fuel (i + 1) lastContentIndex foundBody
      else
        if !foundBody then
          if baseIndent < tok.range.start.column then
            indentEndLoop tokens baseIndent fuel (i + 1) i true
          else lastContentIndex
        else
          if tok.range.start.column ≤ baseIndent then lastContentIndex
          else indentEndLoop tokens baseIndent fuel (i + 1) i foundBody

/-- `findIndentationEndIndex` (`symbol-detector.ts` lines 496-530). -/
def findIndentationEndIndex (tokens : List Token) (afterIndex baseIndent : Nat) : Nat :=
  indentEndLoop tokens baseIndent (tokens.length + 1) (afterIndex + 1) afterIndex false

/-- The bracket-depth update of `findStatementEndIndex` (lines 540-543). -/
def stmtDepthAfter (tok : Token) (depth : Int) : Int :=
  let depth1 := if tok.value = "\x7b".toList || tok.value = "(".toList
    || tok.value = "[".toList then depth + 1 else depth
  if tok.value = "\x7d".toList || tok.value = ")".toList
    || tok.value = "]".toList then depth1 - 1 else depth1

/-- `findStatementEndIndex` loop (`symbol-detector.ts` lines 537-551):
bracket depth tracking, `;` or newline at depth 0 ends the statement. -/
def stmtEndLoop (tokens : List Token) : Nat → Nat → Nat → Int → Nat
  | 0, _, endIndex, _ => endIndex
  | fuel + 1, i, endIndex, depth =>
    match tokens.get? i with
    | none => endIndex
    | some tok =>
      let depth2 := stmtDepthAfter tok depth
      if depth2 = 0 && tok.value = ";".toList then i
      else if depth2 = 0 && tok.category = "newline" && depth2 ≤ 0 then endIndex
      else
        let endIndex2 := if tok.category ≠ "whitespace" && tok.category ≠ "newline"
          then i else endIndex
        stmtEndLoop tokens fuel (i + 1) endIndex2 depth2

/-- `findStatementEndIndex` (`symbol-detector.ts` lines 533-554). -/
def findStatementEndIndex (tokens : List Token) (fromIndex : Nat) : Nat :=
  stmtEndLoop tokens (tokens.length + 1) (fromIndex + 1) fromIndex 0

/-- The blank-line test of `findMarkupBlockEndIndex` line 567:
`i + 1 < tokens.length && tokens[i + 1].category === "newline"`. -/
def nextIsNewline (tokens : List Token) (i : Nat) : Bool :=
  match tokens.get? (i + 1) with
  | some t2 => t2.category = "newline"
  | none => false

/-- `findMarkupBlockEndIndex` loop (`symbol-detector.ts` lines
562-585): stop at a blank line (two consecutive newline tokens);
non-whitespace tokens extend the content end. -/
def markupEndLoop (tokens : List Token) : Nat → Nat → Nat → Nat → Nat
  | 0, _, endIndex, _ => endIndex
  | fuel + 1, i, endIndex, blankLineCount =>
    match tokens.get? i with
    | none => endIndex
    | some tok =>
      if tok.category = "newline" then
        let blc := if nextIsNewline tokens i then blankLineCount + 1 else 0
        if 0 < blc then endIndex
        else markupEndLoop tokens fuel (i + 1) endIndex blc
      else if tok.category ≠ "whitespace" then
        markupEndLoop tokens fuel (i + 1) i 0
      else
        markupEndLoop tokens fuel (i + 1) endIndex blankLineCount

/-- `findMarkupBlockEndIndex` (`symbol-detector.ts` lines 557-588). -/
def findMarkupBlockEndIndex (tokens : List Token) (fromIndex : Nat) : Nat :=
  markupEndLoop tokens (tokens.length + 1) (fromIndex + 1) fromIndex 0

def dummyToken : Token := ⟨"", [], "", ⟨⟨1, 0, 0⟩, ⟨1, 0, 0⟩⟩⟩

/-- `tokens[i] ?? tokens[j]` (with an unreachable default for the
out-of-bounds-crash path of the source). -/
def tokenAt (tokens : List Token) (i j : Nat) : Token :=
  (tokens.get? i).getD ((tokens.get? j).getD dummyToken)

/-- `startOriginalIndex` (`detectSymbols` line 319). -/
def startOrigOf (filtered : List FTok) (m : PMatch) : Nat :=
  ((filtered.get? m.startIndex).map FTok.originalIndex).getD 0

/-- `lastMatchOriginalIndex` (`detectSymbols` line 320):
`filtered[match.endIndex - 1]?.originalIndex ?? startOriginalIndex` —
for `endIndex = 0` the JavaScript index is `-1` and yields the
fallback. -/
def lastMatchOrigOf (filtered : List FTok) (m : PMatch) : Nat :=
  if m.endIndex = 0 then startOrigOf filtered m
  else ((filtered.get? (m.endIndex - 1)).map FTok.originalIndex).getD
    (startOrigOf filtered m)

/-- `endOriginalIndex` (`detectSymbols` lines 322-344): the content end
by body style. -/
def endOrigOf (tokens : List Token) (blockSpans : List BlockSpan)
    (filtered : List FTok) (rule : SymbolRule) (m : PMatch) : Nat :=
  let lastMatchOriginalIndex := lastMatchOrigOf filtered m
  if rule.hasBody then
    if rule.bodyStyle = some "braces" then
      match findNextBlock blockSpans lastMatchOriginalIndex "braces" with
      | some block => block.closeIndex
      | none => lastMatchOriginalIndex
    else if rule.bodyStyle = some "indentation" then
      findIndentationEndIndex tokens lastMatchOriginalIndex
        (((tokens.get? (startOrigOf filtered m)).map
          (fun t => t.range.start.column)).getD 0)
    else if rule.bodyStyle = some "markup-block" then
      findMarkupBlockEndIndex tokens lastMatchOriginalIndex
    else lastMatchOriginalIndex
  else findStatementEndIndex tokens lastMatchOriginalIndex

/-- `nameOriginalIndex` (`detectSymbols` lines 346-349). -/
def nameOrigOf (filtered : List FTok) (m : PMatch) : Nat :=
  match m.caps.idxs.lookup "name" with
  | some ci => ((filtered.get? ci).map FTok.originalIndex).getD (startOrigOf filtered m)
  | none => startOrigOf filtered m

/-- The symbol built from one successful match (`detectSymbols` lines
318-363). -/
def buildSymbol (tokens : List Token) (blockSpans : List BlockSpan)
    (filtered : List FTok) (rule : SymbolRule) (m : PMatch) : CodeSymbol :=
  { name := (m.caps.vals.lookup "name").getD rule.name
    kind := rule.kind
    nameRange := (tokenAt tokens (nameOrigOf filtered m) (startOrigOf filtered m)).range
    contentRange :=
      ⟨((tokens.get? (startOrigOf filtered m)).getD dummyToken).range.start,
        (tokenAt tokens (endOrigOf tokens blockSpans filtered rule m)
          (lastMatchOrigOf filtered m)).range.stop⟩ }

/-- The per-rule scan of `detectSymbols` (lines 312-369): try the rule at
every filtered position not already claimed; on success record the match
and claim the covered compressed indices `[startIndex, endIndex)`. -/
def ruleScanLoop (sFuel : Nat) (filtered : List FTok) (rule : SymbolRule) :
    Nat → Nat → List Nat → List (SymbolRule × PMatch) →
    List Nat × List (SymbolRule × PMatch)
  | 0, _, used, acc => (used, acc)
  | fuel + 1, fi, used, acc =>
    if filtered.length ≤ fi then (used, acc)
    else if fi ∈ used then ruleScanLoop sFuel filtered rule fuel (fi + 1) used acc
    else
      match tryMatch sFuel filtered fi rule.pattern with
      | none => ruleScanLoop sFuel filtered rule fuel (fi + 1) used acc
      | some m =>
        ruleScanLoop sFuel filtered rule fuel (fi + 1)
          (used ++ List.range' m.startIndex (m.endIndex - m.startIndex))
          (acc ++ [(rule, m)])

/-- The rule iteration of `detectSymbols` (line 311): rules in profile
order, sharing the `used` set. -/
def detectMatchesLoop (sFuel : Nat) (filtered : List FTok) :
    List SymbolRule → List Nat → List (SymbolRule × PMatch) →
    List (SymbolRule × PMatch)
  | [], _, acc => acc
  | rule :: rest, used, acc =>
    let r := ruleScanLoop sFuel filtered rule filtered.length 0 used acc
    detectMatchesLoop sFuel filtered rest r.1 r.2

/-- The successful pattern matches of `detectSymbols` in emission order
(the symbols are these matches mapped through `buildSymbol` and
sorted). -/
def detectMatches (sFuel : Nat) (tokens : List Token) (rules : List SymbolRule)
    (skipTokens : List String) : List (SymbolRule × PMatch) :=
  detectMatchesLoop sFuel (buildFiltered tokens skipTokens) rules [] []

/-- Symbol ordering by content start (line, then column) — the sort of
`detectSymbols` lines 373-378. -/
def symLe (a b : CodeSymbol) : Prop :=
  a.contentRange.start.line < b.contentRange.start.line ∨
    (a.contentRange.start.line = b.contentRange.start.line ∧
      a.contentRange.start.column ≤ b.contentRange.start.column)

instance : DecidableRel symLe := fun a b =>
  inferInstanceAs (Decidable (_ ∨ _))

instance : IsTotal CodeSymbol symLe :=
  ⟨fun a b => by unfold symLe; omega⟩

instance : IsTrans CodeSymbol symLe :=
  ⟨fun a b c h1 h2 => by unfold symLe at h1 h2 ⊢; omega⟩

/-- `detectSymbols` from `src/parser/symbol-detector.ts` lines 294-380. -/
def detectSymbols (sFuel : Nat) (tokens : List Token) (rules : List SymbolRule)
    (blockSpans : List BlockSpan) (skipTokens : List String) : List CodeSymbol :=
  ((detectMatches sFuel tokens rules skipTokens).map
    (fun rm => buildSymbol tokens blockSpans (buildFiltered tokens skipTokens)
      rm.1 rm.2)).insertionSort symLe

section ClaimC10

/-- C10: if the filtered token stream is exhausted (`filtered.length ≤
idx`) before a pattern step is processed, `tryMatch` fails the entire
pattern — whatever the remaining step is, in particular when it is an
optional step.  Consequently a symbol rule whose pattern ends in an
optional step never matches when its mandatory prefix consumes the last
filtered token of the stream. -/
theorem tryMatchLoop_eof_fails (sFuel : Nat) (filtered : List FTok)
    (step : Step) (rest : List Step) (idx : Nat) (caps : Caps)
    (h : filtered.length ≤ idx) :
    tryMatchLoop sFuel filtered (step :: rest) idx caps = none := by
  unfold tryMatchLoop
  rw [if_pos h]

/-- Witness for `tryMatchLoop_eof_fails`: a one-token stream exhausted at
index 1, with an optional step remaining. -/
theorem tryMatchLoop_eof_fails_witness :
    tryMatchLoop 1 [⟨dummyToken, 0⟩]
      [Step.optional (Step.tok "x" none none)] 1 ⟨[], []⟩ = none :=
  tryMatchLoop_eof_fails 1 [⟨dummyToken, 0⟩]
    (Step.optional (Step.tok "x" none none)) [] 1 ⟨[], []⟩ (by decide)

end ClaimC10

section ClaimC4

/-- The compressed (filtered) indices claimed by a match:
`[startIndex, endIndex)`. -/
def coversIdx (m : PMatch) (i : Nat) : Prop :=
  m.startIndex ≤ i ∧ i < m.endIndex

instance (m : PMatch) (i : Nat) : Decidable (coversIdx m i) :=
  inferInstanceAs (Decidable (_ ∧ _))

theorem tryMatch_start (sFuel : Nat) (filtered : List FTok) (s : Nat)
    (p : List Step) (m : PMatch) (h : tryMatch sFuel filtered s p = some m) :
    m.startIndex = s := by
  unfold tryMatch at h
  split at h
  · rw [← Option.some.inj h]
  · exact Option.noConfusion h

theorem ruleScanLoop_inv (sFuel : Nat) (filtered : List FTok) (rule : SymbolRule) :
    ∀ (fuel fi : Nat) (used : List Nat) (acc : List (SymbolRule × PMatch)),
      (∀ p ∈ acc, ∀ i, coversIdx p.2 i → i ∈ used) →
      acc.Pairwise (fun a b => ¬ coversIdx a.2 b.2.startIndex) →
      (∀ p ∈ (ruleScanLoop sFuel filtered rule fuel fi used acc).2, ∀ i,
        coversIdx p.2 i → i ∈ (ruleScanLoop sFuel filtered rule fuel fi used acc).1) ∧
      (ruleScanLoop sFuel filtered rule fuel fi used acc).2.Pairwise
        (fun a b => ¬ coversIdx a.2 b.2.startIndex) := by
  intro fuel
  induction fuel with
  | zero => intro fi used acc h1 h2; exact ⟨h1, h2⟩
  | succ fuel ih =>
    intro fi used acc h1 h2
    unfold ruleScanLoop
    split
    · exact ⟨h1, h2⟩
    split
    · exact ih (fi + 1) used acc h1 h2
    next hnotused =>
      rcases htm : tryMatch sFuel filtered fi rule.pattern with _ | m
      · exact ih (fi + 1) used acc h1 h2
      · dsimp only
        have hstart : m.startIndex = fi := tryMatch_start sFuel filtered fi rule.pattern m htm
        refine ih (fi + 1) _ _ ?_ ?_
        · intro p hp i hc
          rcases List.mem_append.mp hp with hp1 | hp2
          · exact List.mem_append_left _ (h1 p hp1 i hc)
          · have hpe : p = (rule, m) := by
              rcases List.mem_singleton.mp hp2 with he
              exact he
            refine List.mem_append_right _ ?_
            rw [hpe] at hc
            have hc1 : m.startIndex ≤ i := hc.1
            have hc2 : i < m.endIndex := hc.2
            exact List.mem_range'_1.mpr ⟨hc1, by omega⟩
        · rw [List.pairwise_append]
          refine ⟨h2, List.pairwise_singleton _ _, ?_⟩
          intro a ha b hb
          rcases List.mem_singleton.mp hb with he
          subst he
          dsimp only
          rw [hstart]
          intro hcov
          exact hnotused (h1 a ha fi hcov)

theorem detectMatchesLoop_inv (sFuel : Nat) (filtered : List FTok) :
    ∀ (rules : List SymbolRule) (used : List Nat)
      (acc : List (SymbolRule × PMatch)),
      (∀ p ∈ acc, ∀ i, coversIdx p.2 i → i ∈ used) →
      acc.Pairwise (fun a b => ¬ coversIdx a.2 b.2.startIndex) →
      (detectMatchesLoop sFuel filtered rules used acc).Pairwise
        (fun a b => ¬ coversIdx a.2 b.2.startIndex) := by
  intro rules
  induction rules with
  | nil => intro used acc _ h2; exact h2
  | cons rule rest ih =>
    intro used acc h1 h2
    unfold detectMatchesLoop
    obtain ⟨k1, k2⟩ := ruleScanLoop_inv sFuel filtered rule filtered.length 0 used acc h1 h2
    exact ih _ _ k1 k2

/-- C4 (amended): in `detectSymbols`, no successful pattern match
*starts* at a compressed position claimed by an earlier match — the
`used` set is consulted only for the starting position, so for any two
matches in order, the later one's start index lies outside the earlier
one's claimed range `[startIndex, endIndex)`.  The claimed ranges
themselves are *not* pairwise disjoint: a later match that starts before
a claimed region may still extend across it (see the counterexample). -/
theorem detectMatches_no_reuse (sFuel : Nat) (tokens : List Token)
    (rules : List SymbolRule) (skipTokens : List String) :
    (detectMatches sFuel tokens rules skipTokens).Pairwise
      (fun a b => ¬ coversIdx a.2 b.2.startIndex) :=
  detectMatchesLoop_inv sFuel (buildFiltered tokens skipTokens) rules [] []
    (fun p hp => absurd hp (List.not_mem_nil p)) List.Pairwise.nil

def tokC4A : Token := ⟨"A", "a".toList, "plain", ⟨⟨1, 0, 0⟩, ⟨1, 1, 1⟩⟩⟩

def tokC4B : Token := ⟨"B", "b".toList, "plain", ⟨⟨1, 1, 1⟩, ⟨1, 2, 2⟩⟩⟩

def ruleC4a : SymbolRule :=
  { name := "r1".toList, kind := "k", pattern := [Step.tok "B" none none] }

def ruleC4b : SymbolRule :=
  { name := "r2".toList, kind := "k",
    pattern := [Step.tok "A" none none, Step.tok "B" none none] }

/-- C4 counterexample: with rule `r1` matching a lone `B` token and rule
`r2` matching `A B`, on the stream `A B` rule `r1` first claims
compressed position 1; rule `r2` then starts at the unclaimed position 0
and successfully matches `[0, 2)` — both matches cover position 1, so
the claimed sets of successful matches are not pairwise disjoint. -/
theorem detectMatches_overlap_counterexample :
    (detectMatches 1 [tokC4A, tokC4B] [ruleC4a, ruleC4b] []).length = 2 ∧
    (∀ p ∈ detectMatches 1 [tokC4A, tokC4B] [ruleC4a, ruleC4b] [],
      coversIdx p.2 1) := by
  exact ⟨by decide, by decide⟩

end ClaimC4

section ClaimC5

/-- First-success behaviour of the `anyOf` fold. -/
theorem foldl_option_first (g : Step → Option Caps) :
    ∀ (alts : List Step) (acc : Option Caps) (c : Caps),
      alts.foldl (fun acc alt =>
        match acc with
        | some x => some x
        | none => g alt) acc = some c →
      acc = some c ∨ ∃ alt ∈ alts, g alt = some c := by
  intro alts
  induction alts with
  | nil => intro acc c h; exact Or.inl h
  | cons a rest ih =>
    intro acc c h
    rw [List.foldl_cons] at h
    rcases acc with _ | x
    · rcases ih (g a) c h with h1 | ⟨alt, hmem, he⟩
      · exact Or.inr ⟨a, List.mem_cons_self _ _, h1⟩
      · exact Or.inr ⟨alt, List.mem_cons_of_mem _ hmem, he⟩
    · rcases ih (some x) c h with h1 | ⟨alt, hmem, he⟩
      · exact Or.inl h1
      · exact Or.inr ⟨alt, List.mem_cons_of_mem _ hmem, he⟩

/-- Captures recorded by a single-step match are at the probed index. -/
theorem matchSingleStep_caps (t : Token) (caps : Caps) (index : Nat) :
    ∀ (fuel : Nat) (step : Step) (caps2 : Caps),
      matchSingleStep t caps index fuel step = some caps2 →
      ∀ k ci, (k, ci) ∈ caps2.idxs → (k, ci) ∈ caps.idxs ∨ ci = index := by
  intro fuel
  induction fuel with
  | zero => intro step caps2 h; exact Option.noConfusion h
  | succ fuel ih =>
    intro step caps2 h
    cases step with
    | tok nm v cap =>
      unfold matchSingleStep at h
      split at h
      · have he := Option.some.inj h
        intro k ci hk
        rcases cap with _ | cname
        · rw [← he] at hk
          exact Or.inl hk
        · rw [← he] at hk
          rcases List.mem_cons.mp hk with h1 | h1
          · exact Or.inr (congrArg Prod.snd h1)
          · exact Or.inl h1
      · exact Option.noConfusion h
    | anyOf alts =>
      rw [show matchSingleStep t caps index (fuel + 1) (.anyOf alts)
          = alts.foldl (fun acc alt =>
            match acc with
            | some x => some x
            | none => matchSingleStep t caps index fuel alt) none from rfl] at h
      rcases foldl_option_first _ alts none caps2 h with h1 | ⟨alt, _, he⟩
      · exact Option.noConfusion h1
      · exact ih alt caps2 he
    | skip flag mt => exact Option.noConfusion h
    | optional s => exact Option.noConfusion h

/-- The skip search returns a position in `[si, si + count)` within the
stream, with captures recorded at that position. -/
theorem skipFind_spec (sFuel : Nat) (filtered : List FTok) (next : Step)
    (caps : Caps) :
    ∀ (count si si2 : Nat) (caps2 : Caps),
      skipFind sFuel filtered next caps si count = some (si2, caps2) →
      si ≤ si2 ∧ si2 < filtered.length ∧
      (∀ k ci, (k, ci) ∈ caps2.idxs → (k, ci) ∈ caps.idxs ∨ ci = si2) := by
  intro count
  induction count with
  | zero => intro si si2 caps2 h; exact Option.noConfusion h
  | succ count ih =>
    intro si si2 caps2 h
    unfold skipFind at h
    rcases hg : filtered.get? si with _ | ft <;> rw [hg] at h
    · exact Option.noConfusion h
    dsimp only at h
    rcases hms : matchSingleStep ft.token caps si sFuel next with _ | capsX <;>
      rw [hms] at h
    · obtain ⟨h1, h2, h3⟩ := ih (si + 1) si2 caps2 h
      exact ⟨by omega, h2, h3⟩
    · have he := Option.some.inj h
      have he1 : si = si2 := congrArg Prod.fst he
      have he2 : capsX = caps2 := congrArg Prod.snd he
      subst he1
      subst he2
      have hlen : si < filtered.length := by
        by_contra hx
        rw [List.get?_eq_none.2 (by omega)] at hg
        exact Option.noConfusion hg
      exact ⟨Nat.le_refl _, hlen, matchSingleStep_caps ft.token caps si sFuel next _ hms⟩

/-- Bounds of the pattern loop: the end index is at least the start, at
most the stream length, and every recorded capture index lies in
`[idx, endIdx)` (or was already present). -/
theorem tryMatchLoop_bounds_aux (sFuel : Nat) (filtered : List FTok) :
    ∀ (n : Nat) (pattern : List Step), pattern.length ≤ n →
      ∀ (idx : Nat) (caps : Caps) (endIdx : Nat) (caps2 : Caps),
      tryMatchLoop sFuel filtered pattern idx caps = some (endIdx, caps2) →
      idx ≤ endIdx ∧ (idx ≤ filtered.length → endIdx ≤ filtered.length) ∧
      (∀ k ci, (k, ci) ∈ caps2.idxs →
        (k, ci) ∈ caps.idxs ∨ (idx ≤ ci ∧ ci < endIdx)) := by
  intro n
  induction n with
  | zero =>
    intro pattern hlen idx caps endIdx caps2 h
    have hp : pattern = [] := List.length_eq_zero.mp (by omega)
    subst hp
    have he := Option.some.inj h
    have he1 : idx = endIdx := congrArg Prod.fst he
    have he2 : caps = caps2 := congrArg Prod.snd he
    subst he1
    subst he2
    exact ⟨Nat.le_refl _, fun hx => hx, fun k ci hk => Or.inl hk⟩
  | succ n ih =>
    intro pattern hlen idx caps endIdx caps2 h
    rcases pattern with _ | ⟨step, rest⟩
    · have he := Option.some.inj h
      have he1 : idx = endIdx := congrArg Prod.fst he
      have he2 : caps = caps2 := congrArg Prod.snd he
      subst he1
      subst he2
      exact ⟨Nat.le_refl _, fun hx => hx, fun k ci hk => Or.inl hk⟩
    have hrest : rest.length ≤ n := by
      have := hlen
      simp only [List.length_cons] at this
      omega
    unfold tryMatchLoop at h
    split at h
    · exact Option.noConfusion h
    next hguard =>
    have hidx : idx < filtered.length := by omega
    cases step with
    | skip flag mt =>
      dsimp only at h
      split at h
      · rcases rest with _ | ⟨next, rest2⟩
        · exact Option.noConfusion h
        · dsimp only at h
          rcases hsf : skipFind sFuel filtered next caps idx
              (min (idx + mt.getD 50) filtered.length - idx) with _ | ⟨si, capsS⟩ <;>
            rw [hsf] at h
          · exact Option.noConfusion h
          dsimp only at h
          obtain ⟨hs1, hs2, hs3⟩ := skipFind_spec sFuel filtered next caps _ idx si capsS hsf
          have hrest2 : rest2.length ≤ n := by
            simp only [List.length_cons] at hrest
            omega
          obtain ⟨hb1, hb2, hb3⟩ := ih rest2 hrest2 (si + 1) capsS endIdx caps2 h
          refine ⟨by omega, fun _ => hb2 (by omega), ?_⟩
          intro k ci hk
          rcases hb3 k ci hk with hk1 | hk1
          · rcases hs3 k ci hk1 with hk2 | hk2
            · exact Or.inl hk2
            · exact Or.inr ⟨by omega, by omega⟩
          · exact Or.inr ⟨by omega, hk1.2⟩
      · exact Option.noConfusion h
    | optional inner =>
      dsimp only at h
      rcases hg : filtered.get? idx with _ | ft <;> rw [hg] at h
      · exact Option.noConfusion h
      dsimp only at h
      rcases hms : matchSingleStep ft.token caps idx sFuel inner with _ | capsX <;>
        rw [hms] at h
      · obtain ⟨hb1, hb2, hb3⟩ := ih rest hrest idx caps endIdx caps2 h
        exact ⟨hb1, hb2, hb3⟩
      · obtain ⟨hb1, hb2, hb3⟩ := ih rest hrest (idx + 1) capsX endIdx caps2 h
        refine ⟨by omega, fun _ => hb2 (by omega), ?_⟩
        intro k ci hk
        rcases hb3 k ci hk with hk1 | hk1
        · rcases matchSingleStep_caps ft.token caps idx sFuel inner capsX hms k ci hk1
            with hk2 | hk2
          · exact Or.inl hk2
          · exact Or.inr ⟨by omega, by omega⟩
        · exact Or.inr ⟨by omega, hk1.2⟩
    | anyOf alts =>
      dsimp only at h
      rcases hg : filtered.get? idx with _ | ft <;> rw [hg] at h
      · exact Option.noConfusion h
      dsimp only at h
      rcases hms : matchSingleStep ft.token caps idx sFuel (.anyOf alts) with _ | capsX <;>
        rw [hms] at h
      · exact Option.noConfusion h
      · obtain ⟨hb1, hb2, hb3⟩ := ih rest hrest (idx + 1) capsX endIdx caps2 h
        refine ⟨by omega, fun _ => hb2 (by omega), ?_⟩
        intro k ci hk
        rcases hb3 k ci hk with hk1 | hk1
        · rcases matchSingleStep_caps ft.token caps idx sFuel (.anyOf alts) capsX hms k ci hk1
            with hk2 | hk2
          · exact Or.inl hk2
          · exact Or.inr ⟨by omega, by omega⟩
        · exact Or.inr ⟨by omega, hk1.2⟩
    | tok nm v cap =>
      dsimp only at h
      rcases hg : filtered.get? idx with _ | ft <;> rw [hg] at h
      · exact Option.noConfusion h
      dsimp only at h
      split at h
      · obtain ⟨hb1, hb2, hb3⟩ := ih rest hrest (idx + 1) _ endIdx caps2 h
        refine ⟨by omega, fun _ => hb2 (by omega), ?_⟩
        intro k ci hk
        rcases hb3 k ci hk with hk1 | hk1
        · rcases cap with _ | cname
          · exact Or.inl hk1
          · rcases List.mem_cons.mp hk1 with hk2 | hk2
            · have hci : ci = idx := congrArg Prod.snd hk2
              exact Or.inr ⟨by omega, by omega⟩
            · exact Or.inl hk2
        · exact Or.inr ⟨by omega, hk1.2⟩
      · exact Option.noConfusion h

/-- Bounds of the pattern loop: the end index is at least the start, at
most the stream length, and every recorded capture index lies in
`[idx, endIdx)` (or was already present). -/
theorem tryMatchLoop_bounds (sFuel : Nat) (filtered : List FTok)
    (pattern : List Step) (idx : Nat) (caps : Caps) (endIdx : Nat) (caps2 : Caps)
    (h : tryMatchLoop sFuel filtered pattern idx caps = some (endIdx, caps2)) :
    idx ≤ endIdx ∧ (idx ≤ filtered.length → endIdx ≤ filtered.length) ∧
    (∀ k ci, (k, ci) ∈ caps2.idxs →
      (k, ci) ∈ caps.idxs ∨ (idx ≤ ci ∧ ci < endIdx)) :=
  tryMatchLoop_bounds_aux sFuel filtered pattern.length pattern (Nat.le_refl _)
    idx caps endIdx caps2 h

/-- Every filtered token points back into the token list at or after the
running index, and carries exactly the token found there. -/
theorem buildFilteredAux_spec (skipTokens : List String) :
    ∀ (rest : List Token) (i : Nat) (ft : FTok),
      ft ∈ buildFilteredAux skipTokens rest i →
      i ≤ ft.originalIndex ∧ rest.get? (ft.originalIndex - i) = some ft.token := by
  intro rest
  induction rest with
  | nil => intro i ft h; exact absurd h (List.not_mem_nil _)
  | cons t rest2 ih =>
    intro i ft h
    unfold buildFilteredAux at h
    split at h
    · obtain ⟨h1, h2⟩ := ih (i + 1) ft h
      refine ⟨by omega, ?_⟩
      rw [show ft.originalIndex - i = (ft.originalIndex - (i + 1)) + 1 from by omega]
      simpa using h2
    · rcases List.mem_cons.mp h with h1 | h1
      · rw [h1]
        exact ⟨Nat.le_refl _, by simp⟩
      · obtain ⟨h1, h2⟩ := ih (i + 1) ft h1
        refine ⟨by omega, ?_⟩
        rw [show ft.originalIndex - i = (ft.originalIndex - (i + 1)) + 1 from by omega]
        simpa using h2

/-- Original indices in the filtered stream are strictly increasing. -/
theorem buildFilteredAux_pairwise (skipTokens : List String) :
    ∀ (rest : List Token) (i : Nat),
      (buildFilteredAux skipTokens rest i).Pairwise
        (fun a b => a.originalIndex < b.originalIndex) := by
  intro rest
  induction rest with
  | nil => intro i; exact List.Pairwise.nil
  | cons t rest2 ih =>
    intro i
    unfold buildFilteredAux
    split
    · exact ih (i + 1)
    · refine List.Pairwise.cons ?_ (ih (i + 1))
      intro ft hft
      have := (buildFilteredAux_spec skipTokens rest2 (i + 1) ft hft).1
      dsimp only
      omega

theorem buildFiltered_get_token (tokens : List Token) (skipTokens : List String)
    (p : Nat) (ft : FTok) (h : (buildFiltered tokens skipTokens).get? p = some ft) :
    tokens.get? ft.originalIndex = some ft.token := by
  have hm : ft ∈ buildFiltered tokens skipTokens := List.get?_mem h
  have := buildFilteredAux_spec skipTokens tokens 0 ft hm
  simpa using this.2

/-- Monotonicity over positions in the filtered stream. -/
theorem buildFiltered_mono (tokens : List Token) (skipTokens : List String)
    (p q : Nat) (fp fq : FTok) (hpq : p ≤ q)
    (hp : (buildFiltered tokens skipTokens).get? p = some fp)
    (hq : (buildFiltered tokens skipTokens).get? q = some fq) :
    fp.originalIndex ≤ fq.originalIndex := by
  rcases Nat.lt_or_ge p q with hlt | hge
  · have hpw : (buildFiltered tokens skipTokens).Pairwise
        (fun a b => a.originalIndex < b.originalIndex) :=
      buildFilteredAux_pairwise skipTokens tokens 0
    rcases List.get?_eq_some.mp hp with ⟨hpl, hpe⟩
    rcases List.get?_eq_some.mp hq with ⟨hql, hqe⟩
    have := (List.pairwise_iff_get.mp hpw) ⟨p, hpl⟩ ⟨q, hql⟩ hlt
    rw [hpe, hqe] at this
    omega
  · have hpq2 : p = q := by omega
    subst hpq2
    rw [hp] at hq
    have : fp = fq := Option.some.inj hq
    rw [this]

/-- `findNextBlock` returns a member span satisfying its predicate. -/
theorem findNextBlock_spec (spans : List BlockSpan) (afterIndex : Nat)
    (blockName : String) (block : BlockSpan)
    (h : findNextBlock spans afterIndex blockName = some block) :
    block ∈ spans ∧ afterIndex ≤ block.openIndex ∧ block.name = blockName := by
  unfold findNextBlock at h
  have hm := List.mem_of_find?_eq_some h
  have hp := List.find?_some h
  simp only [Bool.and_eq_true, decide_eq_true_eq] at hp
  exact ⟨hm, hp.1, hp.2⟩

/-- The indentation-end loop never returns below its running best index,
and returns an in-bounds index whenever the best index is in bounds. -/
theorem indentEndLoop_bounds (tokens : List Token) (baseIndent : Nat) :
    ∀ (fuel i lci : Nat) (fb : Bool), lci < i →
      lci ≤ indentEndLoop tokens baseIndent fuel i lci fb ∧
      (lci < tokens.length →
        indentEndLoop tokens baseIndent fuel i lci fb < tokens.length) := by
  intro fuel
  induction fuel with
  | zero =>
    intro i lci fb hlt
    exact ⟨Nat.le_refl _, fun h => h⟩
  | succ fuel ih =>
    intro i lci fb hlt
    unfold indentEndLoop
    rcases hg : tokens.get? i with _ | tok
    · exact ⟨Nat.le_refl _, fun h => h⟩
    have hi : i < tokens.length := by
      by_contra hx
      rw [List.get?_eq_none.2 (by omega)] at hg
      exact Option.noConfusion hg
    dsimp only
    split
    · exact ih (i + 1) lci fb (by omega)
    split
    · split
      · obtain ⟨h1, h2⟩ := ih (i + 1) i true (by omega)
        exact ⟨by omega, fun _ => h2 hi⟩
      · exact ⟨Nat.le_refl _, fun h => h⟩
    · split
      · exact ⟨Nat.le_refl _, fun h => h⟩
      · obtain ⟨h1, h2⟩ := ih (i + 1) i fb (by omega)
        exact ⟨by omega, fun _ => h2 hi⟩

/-- The statement-end loop never returns below its running end index,
and returns an in-bounds index whenever that index is in bounds. -/
theorem stmtEndLoop_bounds (tokens : List Token) :
    ∀ (fuel i ei : Nat) (depth : Int), ei < i →
      ei ≤ stmtEndLoop tokens fuel i ei depth ∧
      (ei < tokens.length → stmtEndLoop tokens fuel i ei depth < tokens.length) := by
  intro fuel
  induction fuel with
  | zero =>
    intro i ei depth hlt
    exact ⟨Nat.le_refl _, fun h => h⟩
  | succ fuel ih =>
    intro i ei depth hlt
    unfold stmtEndLoop
    rcases hg : tokens.get? i with _ | tok
    · exact ⟨Nat.le_refl _, fun h => h⟩
    have hi : i < tokens.length := by
      by_contra hx
      rw [List.get?_eq_none.2 (by omega)] at hg
      exact Option.noConfusion hg
    dsimp only
    split
    · exact ⟨by omega, fun _ => hi⟩
    split
    · exact ⟨Nat.le_refl _, fun h => h⟩
    · split
      · obtain ⟨h1, h2⟩ := ih (i + 1) i _ (by omega)
        exact ⟨by omega, fun _ => h2 hi⟩
      · exact ih (i + 1) ei _ (by omega)

/-- The markup-block-end loop never returns below its running end index,
and returns an in-bounds index whenever that index is in bounds. -/
theorem markupEndLoop_bounds (tokens : List Token) :
    ∀ (fuel i ei blc : Nat), ei < i →
      ei ≤ markupEndLoop tokens fuel i ei blc ∧
      (ei < tokens.length → markupEndLoop tokens fuel i ei blc < tokens.length) := by
  intro fuel
  induction fuel with
  | zero =>
    intro i ei blc hlt
    exact ⟨Nat.le_refl _, fun h => h⟩
  | succ fuel ih =>
    intro i ei blc hlt
    unfold markupEndLoop
    rcases hg : tokens.get? i with _ | tok
    · exact ⟨Nat.le_refl _, fun h => h⟩
    have hi : i < tokens.length := by
      by_contra hx
      rw [List.get?_eq_none.2 (by omega)] at hg
      exact Option.noConfusion hg
    dsimp only
    split
    · split
      · rw [if_pos (by omega)]
        exact ⟨Nat.le_refl _, fun h => h⟩
      · rw [if_neg (by omega)]
        exact ih (i + 1) ei 0 (by omega)
    split
    · obtain ⟨h1, h2⟩ := ih (i + 1) i 0 (by omega)
      exact ⟨by omega, fun _ => h2 hi⟩
    · exact ih (i + 1) ei blc (by omega)

/-- Offset accessors for the token list (out of bounds: the dummy). -/
def tokStartOff (tokens : List Token) (k : Nat) : Nat :=
  ((tokens.get? k).getD dummyToken).range.start.offset

def tokStopOff (tokens : List Token) (k : Nat) : Nat :=
  ((tokens.get? k).getD dummyToken).range.stop.offset

/-- The hypothesis of the containment theorem: every token spans a
non-negative extent and consecutive tokens do not overlap backwards (as
the tokenizer produces, reading left to right). -/
def tokensMonotone (tokens : List Token) : Prop :=
  ∀ k, k < tokens.length →
    tokStartOff tokens k ≤ tokStopOff tokens k ∧
    (k + 1 < tokens.length → tokStopOff tokens k ≤ tokStartOff tokens (k + 1))

theorem tokensMonotone_chain (tokens : List Token) (hm : tokensMonotone tokens) :
    ∀ (d i : Nat), i + d < tokens.length →
      tokStartOff tokens i ≤ tokStartOff tokens (i + d) ∧
      tokStopOff tokens i ≤ tokStopOff tokens (i + d) := by
  intro d
  induction d with
  | zero => intro i h; exact ⟨Nat.le_refl _, Nat.le_refl _⟩
  | succ d ih =>
    intro i h
    obtain ⟨h1, h2⟩ := ih i (by omega)
    obtain ⟨h3, h4⟩ := hm (i + d) (by omega)
    have h5 := h4 (by omega)
    obtain ⟨h6, _⟩ := hm (i + d + 1) (by omega)
    constructor
    · calc tokStartOff tokens i ≤ tokStartOff tokens (i + d) := h1
        _ ≤ tokStopOff tokens (i + d) := h3
        _ ≤ tokStartOff tokens (i + d + 1) := h5
        _ = tokStartOff tokens (i + (d + 1)) := by rw [show i + d + 1 = i + (d + 1) from by omega]
    · calc tokStopOff tokens i ≤ tokStopOff tokens (i + d) := h2
        _ ≤ tokStartOff tokens (i + d + 1) := h5
        _ ≤ tokStopOff tokens (i + d + 1) := h6
        _ = tokStopOff tokens (i + (d + 1)) := by rw [show i + d + 1 = i + (d + 1) from by omega]

/-- Range containment by byte offsets. -/
def rangeSub (r1 r2 : Range) : Prop :=
  r2.start.offset ≤ r1.start.offset ∧ r1.stop.offset ≤ r2.stop.offset

instance (r1 r2 : Range) : Decidable (rangeSub r1 r2) :=
  inferInstanceAs (Decidable (_ ∧ _))

/-- A successful `List.lookup` finds a member pair. -/
theorem lookup_mem_idx (k : String) (v : Nat) :
    ∀ (l : List (String × Nat)), l.lookup k = some v → (k, v) ∈ l := by
  intro l
  induction l with
  | nil => intro h; exact Option.noConfusion h
  | cons a rest ih =>
    intro h
    rcases a with ⟨k1, v1⟩
    rw [show List.lookup k ((k1, v1) :: rest)
        = (match k == k1 with
          | true => some v1
          | false => List.lookup k rest) from rfl] at h
    cases hbe : (k == k1) with
    | false =>
      rw [hbe] at h
      exact List.mem_cons_of_mem _ (ih h)
    | true =>
      rw [hbe] at h
      have h1 : k = k1 := by simpa using hbe
      have h2 : v1 = v := Option.some.inj h
      subst h1
      subst h2
      exact List.mem_cons_self _ _

/-- The content-end index is at least the last matched token's index,
and in bounds, provided every block span is well formed and the last
matched index is in bounds. -/
theorem endOrigOf_bounds (tokens : List Token) (blockSpans : List BlockSpan)
    (filtered : List FTok) (rule : SymbolRule) (m : PMatch)
    (hspans : ∀ s ∈ blockSpans, s.openIndex < s.closeIndex ∧ s.closeIndex < tokens.length)
    (hl : lastMatchOrigOf filtered m < tokens.length) :
    lastMatchOrigOf filtered m ≤ endOrigOf tokens blockSpans filtered rule m ∧
    endOrigOf tokens blockSpans filtered rule m < tokens.length := by
  unfold endOrigOf
  dsimp only
  split
  · split
    · rcases hfb : findNextBlock blockSpans (lastMatchOrigOf filtered m) "braces"
            with _ | block
      · exact ⟨Nat.le_refl _, hl⟩
      · obtain ⟨hmem, hle, _⟩ := findNextBlock_spec _ _ _ _ hfb
        obtain ⟨h1, h2⟩ := hspans block hmem
        dsimp only
        exact ⟨by omega, h2⟩
    split
    · unfold findIndentationEndIndex
      obtain ⟨h1, h2⟩ := indentEndLoop_bounds tokens _ (tokens.length + 1)
        (lastMatchOrigOf filtered m + 1) (lastMatchOrigOf filtered m) false (by omega)
      exact ⟨h1, h2 hl⟩
    split
    · unfold findMarkupBlockEndIndex
      obtain ⟨h1, h2⟩ := markupEndLoop_bounds tokens (tokens.length + 1)
        (lastMatchOrigOf filtered m + 1) (lastMatchOrigOf filtered m) 0 (by omega)
      exact ⟨h1, h2 hl⟩
    · exact ⟨Nat.le_refl _, hl⟩
  · unfold findStatementEndIndex
    obtain ⟨h1, h2⟩ := stmtEndLoop_bounds tokens (tokens.length + 1)
      (lastMatchOrigOf filtered m + 1) (lastMatchOrigOf filtered m) 0 (by omega)
    exact ⟨h1, h2 hl⟩

/-- Every match emitted by the per-rule scan was either already in the
accumulator or is a genuine `tryMatchLoop` success at its start index. -/
theorem ruleScanLoop_mem (sFuel : Nat) (filtered : List FTok) (rule : SymbolRule) :
    ∀ (fuel fi : Nat) (used : List Nat) (acc : List (SymbolRule × PMatch))
      (p : SymbolRule × PMatch),
      p ∈ (ruleScanLoop sFuel filtered rule fuel fi used acc).2 →
      p ∈ acc ∨ (p.2.startIndex < filtered.length ∧
        tryMatchLoop sFuel filtered p.1.pattern p.2.startIndex ⟨[], []⟩ =
          some (p.2.endIndex, p.2.caps)) := by
  intro fuel
  induction fuel with
  | zero => intro fi used acc p h; exact Or.inl h
  | succ fuel ih =>
    intro fi used acc p h
    unfold ruleScanLoop at h
    split at h
    · exact Or.inl h
    next hguard =>
    split at h
    · exact ih (fi + 1) used acc p h
    rcases htm : tryMatch sFuel filtered fi rule.pattern with _ | m <;> rw [htm] at h
    · exact ih (fi + 1) used acc p h
    · rcases ih (fi + 1) _ _ p h with h1 | h1
      · rcases List.mem_append.mp h1 with h2 | h2
        · exact Or.inl h2
        · have hpm : p = (rule, m) := by simpa using h2
          subst hpm
          unfold tryMatch at htm
          rcases hloop : tryMatchLoop sFuel filtered rule.pattern fi ⟨[], []⟩
              with _ | ec <;> rw [hloop] at htm
          · exact Option.noConfusion htm
          · have hme : m = ⟨fi, ec.1, ec.2⟩ := (Option.some.inj htm).symm
            refine Or.inr ⟨?_, ?_⟩
            · rw [hme]
              dsimp only
              omega
            · rw [hme]
              dsimp only
              rw [hloop]
      · exact Or.inr h1

/-- Lifting `ruleScanLoop_mem` through the rule iteration. -/
theorem detectMatchesLoop_mem (sFuel : Nat) (filtered : List FTok) :
    ∀ (rules : List SymbolRule) (used : List Nat) (acc : List (SymbolRule × PMatch))
      (p : SymbolRule × PMatch),
      p ∈ detectMatchesLoop sFuel filtered rules used acc →
      p ∈ acc ∨ (p.2.startIndex < filtered.length ∧
        tryMatchLoop sFuel filtered p.1.pattern p.2.startIndex ⟨[], []⟩ =
          some (p.2.endIndex, p.2.caps)) := by
  intro rules
  induction rules with
  | nil => intro used acc p h; exact Or.inl h
  | cons rule rest ih =>
    intro used acc p h
    unfold detectMatchesLoop at h
    rcases ih _ _ p h with h1 | h1
    · exact ruleScanLoop_mem sFuel filtered rule filtered.length 0 used acc p h1
    · exact Or.inr h1

/-- Every detected match is a `tryMatchLoop` success at an in-bounds
start index of the filtered stream. -/
theorem detectMatches_mem (sFuel : Nat) (tokens : List Token)
    (rules : List SymbolRule) (skipTokens : List String) (p : SymbolRule × PMatch)
    (h : p ∈ detectMatches sFuel tokens rules skipTokens) :
    p.2.startIndex < (buildFiltered tokens skipTokens).length ∧
    tryMatchLoop sFuel (buildFiltered tokens skipTokens) p.1.pattern
      p.2.startIndex ⟨[], []⟩ = some (p.2.endIndex, p.2.caps) := by
  unfold detectMatches at h
  rcases detectMatchesLoop_mem sFuel _ rules [] [] p h with h1 | h1
  · exact absurd h1 (List.not_mem_nil _)
  · exact h1

/-- C5: name containment, amended.  Under the invariants the tokenizer
establishes — token ranges are monotone in stream order — and well-formed
block spans, every symbol built from a match that covers at least one
filtered token satisfies `nameRange ⊆ contentRange` (by byte offsets).
The proviso is needed: a pattern that matches zero tokens (all steps
optional, none matching) yields `endIndex = startIndex`, making the
content range end before the name token (see the counterexample). -/
theorem detectSymbols_name_in_content
    (sFuel : Nat) (tokens : List Token) (rules : List SymbolRule)
    (blockSpans : List BlockSpan) (skipTokens : List String)
    (hmono : tokensMonotone tokens)
    (hspans : ∀ s ∈ blockSpans,
      s.openIndex < s.closeIndex ∧ s.closeIndex < tokens.length)
    (hwidth : ∀ p ∈ detectMatches sFuel tokens rules skipTokens,
      p.2.startIndex < p.2.endIndex) :
    ∀ s ∈ detectSymbols sFuel tokens rules blockSpans skipTokens,
      rangeSub s.nameRange s.contentRange := by
  intro s hs
  unfold detectSymbols at hs
  have hs2 := (List.Perm.mem_iff (List.perm_insertionSort symLe _)).mp hs
  rcases List.mem_map.mp hs2 with ⟨p, hp, hps⟩
  rcases p with ⟨rule, m⟩
  subst hps
  dsimp only
  obtain ⟨hstart, hloop⟩ := detectMatches_mem sFuel tokens rules skipTokens ⟨rule, m⟩ hp
  have hw : m.startIndex < m.endIndex := hwidth ⟨rule, m⟩ hp
  dsimp only at hstart hloop hw
  obtain ⟨hb1, hb2, hb3⟩ := tryMatchLoop_bounds sFuel (buildFiltered tokens skipTokens)
    rule.pattern m.startIndex ⟨[], []⟩ m.endIndex m.caps hloop
  have hend : m.endIndex ≤ (buildFiltered tokens skipTokens).length := hb2 (by omega)
  have he1 : m.endIndex - 1 < (buildFiltered tokens skipTokens).length := by omega
  have hgs : (buildFiltered tokens skipTokens).get? m.startIndex
      = some ((buildFiltered tokens skipTokens).get ⟨m.startIndex, hstart⟩) :=
    List.get?_eq_get hstart
  have hge : (buildFiltered tokens skipTokens).get? (m.endIndex - 1)
      = some ((buildFiltered tokens skipTokens).get ⟨m.endIndex - 1, he1⟩) :=
    List.get?_eq_get he1
  have hso : startOrigOf (buildFiltered tokens skipTokens) m
      = ((buildFiltered tokens skipTokens).get ⟨m.startIndex, hstart⟩).originalIndex := by
    unfold startOrigOf
    rw [hgs]
    rfl
  have hlo : lastMatchOrigOf (buildFiltered tokens skipTokens) m
      = ((buildFiltered tokens skipTokens).get ⟨m.endIndex - 1, he1⟩).originalIndex := by
    unfold lastMatchOrigOf
    rw [if_neg (by omega), hge]
    rfl
  have hts : tokens.get?
      ((buildFiltered tokens skipTokens).get ⟨m.startIndex, hstart⟩).originalIndex
      = some ((buildFiltered tokens skipTokens).get ⟨m.startIndex, hstart⟩).token :=
    buildFiltered_get_token tokens skipTokens m.startIndex _ hgs
  have hte : tokens.get?
      ((buildFiltered tokens skipTokens).get ⟨m.endIndex - 1, he1⟩).originalIndex
      = some ((buildFiltered tokens skipTokens).get ⟨m.endIndex - 1, he1⟩).token :=
    buildFiltered_get_token tokens skipTokens (m.endIndex - 1) _ hge
  have hmon1 : ((buildFiltered tokens skipTokens).get ⟨m.startIndex, hstart⟩).originalIndex
      ≤ ((buildFiltered tokens skipTokens).get ⟨m.endIndex - 1, he1⟩).originalIndex :=
    buildFiltered_mono tokens skipTokens m.startIndex (m.endIndex - 1) _ _ (by omega) hgs hge
  rcases List.get?_eq_some.mp hte with ⟨hfel, -⟩
  have hname : startOrigOf (buildFiltered tokens skipTokens) m
        ≤ nameOrigOf (buildFiltered tokens skipTokens) m ∧
      nameOrigOf (buildFiltered tokens skipTokens) m
        ≤ lastMatchOrigOf (buildFiltered tokens skipTokens) m ∧
      ∃ tn, tokens.get? (nameOrigOf (buildFiltered tokens skipTokens) m) = some tn := by
    unfold nameOrigOf
    rcases hlk : m.caps.idxs.lookup "name" with _ | ci
    · refine ⟨Nat.le_refl _, ?_, ?_⟩
      · rw [hso, hlo]
        exact hmon1
      · rw [hso]
        exact ⟨_, hts⟩
    · have hmem := lookup_mem_idx "name" ci m.caps.idxs hlk
      rcases hb3 "name" ci hmem with h1 | h1
      · exact absurd h1 (List.not_mem_nil _)
      have hci : ci < (buildFiltered tokens skipTokens).length := by omega
      have hgc : (buildFiltered tokens skipTokens).get? ci
          = some ((buildFiltered tokens skipTokens).get ⟨ci, hci⟩) :=
        List.get?_eq_get hci
      dsimp only
      rw [hgc]
      refine ⟨?_, ?_, ?_⟩
      · rw [hso]
        exact buildFiltered_mono tokens skipTokens m.startIndex ci _ _ (by omega) hgs hgc
      · rw [hlo]
        exact buildFiltered_mono tokens skipTokens ci (m.endIndex - 1) _ _ (by omega) hgc hge
      · exact ⟨_, buildFiltered_get_token tokens skipTokens ci _ hgc⟩
  obtain ⟨hn1, hn2, tn, htn⟩ := hname
  rcases List.get?_eq_some.mp htn with ⟨hnlen, -⟩
  obtain ⟨heo1, heo2⟩ := endOrigOf_bounds tokens blockSpans
    (buildFiltered tokens skipTokens) rule m hspans (by rw [hlo]; exact hfel)
  have hget2 : tokens.get? (endOrigOf tokens blockSpans (buildFiltered tokens skipTokens) rule m)
      = some (tokens.get ⟨endOrigOf tokens blockSpans (buildFiltered tokens skipTokens) rule m,
          heo2⟩) :=
    List.get?_eq_get heo2
  have hnr : tokenAt tokens (nameOrigOf (buildFiltered tokens skipTokens) m)
      (startOrigOf (buildFiltered tokens skipTokens) m) = tn := by
    unfold tokenAt
    rw [htn]
    rfl
  have her : tokenAt tokens
      (endOrigOf tokens blockSpans (buildFiltered tokens skipTokens) rule m)
      (lastMatchOrigOf (buildFiltered tokens skipTokens) m)
      = tokens.get ⟨endOrigOf tokens blockSpans (buildFiltered tokens skipTokens) rule m,
          heo2⟩ := by
    unfold tokenAt
    rw [hget2]
    rfl
  have hgs2 : tokens.get? (startOrigOf (buildFiltered tokens skipTokens) m)
      = some ((buildFiltered tokens skipTokens).get ⟨m.startIndex, hstart⟩).token := by
    rw [hso]
    exact hts
  have hA : tokStartOff tokens (startOrigOf (buildFiltered tokens skipTokens) m)
      ≤ tokStartOff tokens (nameOrigOf (buildFiltered tokens skipTokens) m) := by
    have hd := tokensMonotone_chain tokens hmono
      (nameOrigOf (buildFiltered tokens skipTokens) m
        - startOrigOf (buildFiltered tokens skipTokens) m)
      (startOrigOf (buildFiltered tokens skipTokens) m) (by omega)
    rw [show startOrigOf (buildFiltered tokens skipTokens) m
        + (nameOrigOf (buildFiltered tokens skipTokens) m
          - startOrigOf (buildFiltered tokens skipTokens) m)
        = nameOrigOf (buildFiltered tokens skipTokens) m from by omega] at hd
    exact hd.1
  have hB : tokStopOff tokens (nameOrigOf (buildFiltered tokens skipTokens) m)
      ≤ tokStopOff tokens
        (endOrigOf tokens blockSpans (buildFiltered tokens skipTokens) rule m) := by
    have hd := tokensMonotone_chain tokens hmono
      (endOrigOf tokens blockSpans (buildFiltered tokens skipTokens) rule m
        - nameOrigOf (buildFiltered tokens skipTokens) m)
      (nameOrigOf (buildFiltered tokens skipTokens) m) (by omega)
    rw [show nameOrigOf (buildFiltered tokens skipTokens) m
        + (endOrigOf tokens blockSpans (buildFiltered tokens skipTokens) rule m
          - nameOrigOf (buildFiltered tokens skipTokens) m)
        = endOrigOf tokens blockSpans (buildFiltered tokens skipTokens) rule m
        from by omega] at hd
    exact hd.2
  unfold buildSymbol rangeSub
  dsimp only
  rw [hnr, her, hgs2]
  constructor
  · have e1 : tokStartOff tokens (startOrigOf (buildFiltered tokens skipTokens) m)
        = ((buildFiltered tokens skipTokens).get
            ⟨m.startIndex, hstart⟩).token.range.start.offset := by
      unfold tokStartOff
      rw [hgs2]
      rfl
    have e2 : tokStartOff tokens (nameOrigOf (buildFiltered tokens skipTokens) m)
        = tn.range.start.offset := by
      unfold tokStartOff
      rw [htn]
      rfl
    show ((buildFiltered tokens skipTokens).get
        ⟨m.startIndex, hstart⟩).token.range.start.offset ≤ tn.range.start.offset
    rw [← e1, ← e2]
    exact hA
  · have e3 : tokStopOff tokens
        (endOrigOf tokens blockSpans (buildFiltered tokens skipTokens) rule m)
        = (tokens.get ⟨endOrigOf tokens blockSpans (buildFiltered tokens skipTokens) rule m,
            heo2⟩).range.stop.offset := by
      unfold tokStopOff
      rw [hget2]
      rfl
    have e4 : tokStopOff tokens (nameOrigOf (buildFiltered tokens skipTokens) m)
        = tn.range.stop.offset := by
      unfold tokStopOff
      rw [htn]
      rfl
    show tn.range.stop.offset ≤ (tokens.get
        ⟨endOrigOf tokens blockSpans (buildFiltered tokens skipTokens) rule m,
          heo2⟩).range.stop.offset
    rw [← e4, ← e3]
    exact hB

instance (tokens : List Token) : Decidable (tokensMonotone tokens) :=
  inferInstanceAs (Decidable (∀ k, k < tokens.length →
    tokStartOff tokens k ≤ tokStopOff tokens k ∧
    (k + 1 < tokens.length → tokStopOff tokens k ≤ tokStartOff tokens (k + 1))))

/-- Concrete streams exercising the containment theorem and its
failure mode. -/
def tokC5A : Token := ⟨"word", ['A'], "word", ⟨⟨1, 0, 0⟩, ⟨1, 1, 1⟩⟩⟩

def tokC5NL : Token := ⟨"nl", ['\n'], "newline", ⟨⟨1, 1, 1⟩, ⟨2, 0, 2⟩⟩⟩

def tokC5B : Token := ⟨"word", ['B'], "word", ⟨⟨2, 0, 2⟩, ⟨2, 1, 3⟩⟩⟩

/-- A rule whose single step is optional: it can succeed matching zero
tokens. -/
def ruleC5X : SymbolRule := ⟨"x".toList, "variable",
  [.optional (.tok "X" none none)], false, none, none, false⟩

/-- A rule matching one word token and capturing it as the name. -/
def ruleC5W : SymbolRule := ⟨"f".toList, "function",
  [.tok "word" none (some "name")], false, none, none, false⟩

/-- C5 counterexample: on the monotone stream `A`, newline, `B` with the
newline skip-filtered, the all-optional rule matches zero tokens at
filtered position 1; the resulting symbol names token `B` (offsets 2-3)
but its content range runs from `B`'s start back to `A`'s end (offsets
2-1), so `nameRange ⊆ contentRange` fails as literally claimed. -/
theorem detectSymbols_name_containment_counterexample :
    tokensMonotone [tokC5A, tokC5NL, tokC5B] ∧
    ¬ (∀ s ∈ detectSymbols 1 [tokC5A, tokC5NL, tokC5B] [ruleC5X] [] ["nl"],
      rangeSub s.nameRange s.contentRange) := by
  decide

/-- C5 witness: a one-token stream with a name-capturing rule satisfies
all hypotheses of the containment theorem, which then applies. -/
theorem detectSymbols_name_in_content_witness :
    tokensMonotone [tokC5A] ∧
    (∀ s ∈ detectSymbols 1 [tokC5A] [ruleC5W] [] [],
      rangeSub s.nameRange s.contentRange) :=
  ⟨by decide, detectSymbols_name_in_content 1 [tokC5A] [ruleC5W] [] []
    (by decide) (by decide) (by decide)⟩

end ClaimC5
